import Mathlib

/-!
Verification of the redshift cross-correlation / spatially-resolved
emission-line pipeline of the jdat_notebooks repository.

The development shallowly embeds the numerical logic of
`02_Cross_correlation_template.ipynb`,
`03_Spatially_resolved_emission_line_map.ipynb` and
`NIRCam_multiband_photometry.ipynb` over exact rational arithmetic.
Numpy arrays are modelled as `List ℚ`, numpy boolean-mask selection as
`List.filter` over zipped arrays, and numpy basic slicing (with python's
negative-index normalisation) as `pySlice`.  Third-party fitting routines
(`numpy.polyfit`, `specutils.fit_generic_continuum`, `fit_lines`) are not
part of the repository's own sources; they are modelled from the
specification as ordinary least-squares polynomial fits, either as an
executable Cramer solution (degree 2) or through the minimisation
predicate `IsLSQPolyFit` (general degree).
-/

namespace Jdat

/-! ### Generic list-sum helpers -/

theorem lsum_add {α : Type} (l : List α) (f g : α → ℚ) :
    (l.map (fun x => f x + g x)).sum = (l.map f).sum + (l.map g).sum := by
  induction l with
  | nil => simp
  | cons a t ih => simp [ih]; ring

theorem lsum_sub {α : Type} (l : List α) (f g : α → ℚ) :
    (l.map (fun x => f x - g x)).sum = (l.map f).sum - (l.map g).sum := by
  induction l with
  | nil => simp
  | cons a t ih => simp [ih]; ring

theorem lsum_smul {α : Type} (l : List α) (c : ℚ) (f : α → ℚ) :
    (l.map (fun x => c * f x)).sum = c * (l.map f).sum := by
  induction l with
  | nil => simp
  | cons a t ih => simp [ih]; ring

theorem lsum_congr {α : Type} {l : List α} {f g : α → ℚ}
    (h : ∀ x ∈ l, f x = g x) : (l.map f).sum = (l.map g).sum := by
  induction l with
  | nil => simp
  | cons a t ih =>
    simp only [List.map_cons, List.sum_cons]
    rw [h a (by simp), ih (fun x hx => h x (by simp [hx]))]

theorem lsum_nonneg {α : Type} {l : List α} {f : α → ℚ}
    (h : ∀ x ∈ l, 0 ≤ f x) : 0 ≤ (l.map f).sum := by
  induction l with
  | nil => simp
  | cons a t ih =>
    simp only [List.map_cons, List.sum_cons]
    have h1 := h a (by simp)
    have h2 := ih (fun x hx => h x (by simp [hx]))
    linarith

theorem lsum_eq_zero_of_nonneg {α : Type} {l : List α} {f : α → ℚ}
    (hz : (l.map f).sum = 0) (h : ∀ x ∈ l, 0 ≤ f x) :
    ∀ x ∈ l, f x = 0 := by
  induction l with
  | nil => simp
  | cons a t ih =>
    simp only [List.map_cons, List.sum_cons] at hz
    have h1 := h a (by simp)
    have h2 : 0 ≤ (t.map f).sum := lsum_nonneg (fun x hx => h x (by simp [hx]))
    intro x hx
    rcases List.mem_cons.mp hx with rfl | hx'
    · linarith
    · exact ih (by linarith) (fun y hy => h y (by simp [hy])) x hx'

theorem le_lsum_of_mem {α : Type} {l : List α} {f : α → ℚ} {x : α}
    (hx : x ∈ l) (h : ∀ y ∈ l, 0 ≤ f y) : f x ≤ (l.map f).sum := by
  induction l with
  | nil => cases hx
  | cons a t ih =>
    simp only [List.map_cons, List.sum_cons]
    rcases List.mem_cons.mp hx with rfl | hx'
    · have : 0 ≤ (t.map f).sum := lsum_nonneg (fun y hy => h y (by simp [hy]))
      linarith
    · have h1 := h a (by simp)
      have h2 := ih hx' (fun y hy => h y (by simp [hy]))
      linarith

theorem lsum_range_eq_finset (n : ℕ) (f : ℕ → ℚ) :
    ((List.range n).map f).sum = ∑ k ∈ Finset.range n, f k := by
  induction n with
  | zero => simp
  | succ m ih => rw [List.range_succ, Finset.sum_range_succ]; simp [ih]

/-- A sum over `range m` of terms that cancel pairwise under the reflection
`k ↦ m - 1 - k` vanishes. -/
theorem lsum_reflect_zero (m : ℕ) (f : ℕ → ℚ)
    (h : ∀ k < m, f k + f (m - 1 - k) = 0) :
    ((List.range m).map f).sum = 0 := by
  rw [lsum_range_eq_finset]
  have hrefl : ∑ k ∈ Finset.range m, f (m - 1 - k) = ∑ k ∈ Finset.range m, f k :=
    Finset.sum_range_reflect f m
  have h2 : (∑ k ∈ Finset.range m, f k) + (∑ k ∈ Finset.range m, f k) = 0 := by
    calc (∑ k ∈ Finset.range m, f k) + (∑ k ∈ Finset.range m, f k)
        = (∑ k ∈ Finset.range m, f k) + (∑ k ∈ Finset.range m, f (m - 1 - k)) := by
          rw [hrefl]
      _ = ∑ k ∈ Finset.range m, (f k + f (m - 1 - k)) := (Finset.sum_add_distrib).symm
      _ = ∑ k ∈ Finset.range m, (0 : ℚ) := by
          refine Finset.sum_congr rfl ?_
          intro k hk
          exact h k (Finset.mem_range.mp hk)
      _ = 0 := by simp
  linarith

/-! ### Polynomial evaluation and ordinary least squares

`evalPoly` evaluates a coefficient list (constant coefficient first) at a
point, by Horner's rule.  `sseG` is the sum of squared residuals of a data
set against such a polynomial.  `IsLSQPolyFit m pts c` says that `c` is a
length-`m` coefficient vector minimising the sum of squared residuals among
all length-`m` coefficient vectors: this is the defining property of the
ordinary least-squares polynomial fit of degree `m - 1`. -/

def evalPoly : List ℚ → ℚ → ℚ
  | [], _ => 0
  | a :: as, x => a + x * evalPoly as x

def sseG (pts : List (ℚ × ℚ)) (c : List ℚ) : ℚ :=
  (pts.map (fun p => (p.2 - evalPoly c p.1) ^ 2)).sum

/-- Modelled from the spec: the ordinary least-squares polynomial fit
(section 4.1 "perform an ordinary least-squares polynomial fit of the given
degree on the selected subset"), characterising the behaviour of the
third-party fitting routines (`specutils.fit_generic_continuum` with a
degree-`m-1` polynomial model, `numpy.polyfit`) that are not part of this
repository's sources.  `m` is the number of coefficients (degree + 1). -/
def IsLSQPolyFit (m : ℕ) (pts : List (ℚ × ℚ)) (c : List ℚ) : Prop :=
  c.length = m ∧ ∀ c' : List ℚ, c'.length = m → sseG pts c ≤ sseG pts c'

theorem sseG_nonneg (pts : List (ℚ × ℚ)) (c : List ℚ) : 0 ≤ sseG pts c :=
  lsum_nonneg (fun _ _ => sq_nonneg _)

/-- Residual weighted-sum: if the residuals of `c` are orthogonal to the
monomials `x ^ k` for `j ≤ k < j + d.length`, they are orthogonal to
`x ^ j * evalPoly d x`. -/
theorem orth_weighted (pts : List (ℚ × ℚ)) (c : List ℚ) :
    ∀ (d : List ℚ) (j : ℕ),
    (∀ k, j ≤ k → k < j + d.length →
      (pts.map (fun p => (p.2 - evalPoly c p.1) * p.1 ^ k)).sum = 0) →
    (pts.map (fun p => (p.2 - evalPoly c p.1) * (p.1 ^ j * evalPoly d p.1))).sum = 0 := by
  intro d
  induction d with
  | nil => intro j _; simp [evalPoly]
  | cons a ds ih =>
    intro j h
    have hsplit : (pts.map (fun p =>
        (p.2 - evalPoly c p.1) * (p.1 ^ j * evalPoly (a :: ds) p.1))).sum =
        (pts.map (fun p => a * ((p.2 - evalPoly c p.1) * p.1 ^ j))).sum +
        (pts.map (fun p => (p.2 - evalPoly c p.1) * (p.1 ^ (j+1) * evalPoly ds p.1))).sum := by
      rw [← lsum_add]
      refine lsum_congr ?_
      intro p _
      simp only [evalPoly]
      ring
    rw [hsplit, lsum_smul]
    have h1 : (pts.map (fun p => (p.2 - evalPoly c p.1) * p.1 ^ j)).sum = 0 :=
      h j le_rfl (by simp)
    have h2 := ih (j + 1) (fun k hk1 hk2 => h k (by omega) (by simpa [Nat.add_right_comm] using by omega))
    rw [h1, h2]
    ring

/-- Quadratic expansion of the sum of squared residuals about `c`. -/
theorem sse_split (pts : List (ℚ × ℚ)) (c c' : List ℚ) :
    sseG pts c' = sseG pts c
      + 2 * (pts.map (fun p => (p.2 - evalPoly c p.1) * (evalPoly c p.1 - evalPoly c' p.1))).sum
      + (pts.map (fun p => (evalPoly c p.1 - evalPoly c' p.1) ^ 2)).sum := by
  unfold sseG
  have hpt : (pts.map (fun p => (p.2 - evalPoly c' p.1) ^ 2)).sum =
      (pts.map (fun p => (p.2 - evalPoly c p.1) ^ 2
        + (2 * ((p.2 - evalPoly c p.1) * (evalPoly c p.1 - evalPoly c' p.1))
           + (evalPoly c p.1 - evalPoly c' p.1) ^ 2))).sum := by
    refine lsum_congr ?_
    intro p _
    ring
  rw [hpt, lsum_add, lsum_add, lsum_smul]
  ring

/-- Residual orthogonality to all monomials of degree below `m` implies the
least-squares minimality property among coefficient vectors of length `m`. -/
theorem orth_implies_lsq {m : ℕ} {pts : List (ℚ × ℚ)} {c : List ℚ}
    (hlen : c.length = m)
    (horth : ∀ k < m, (pts.map (fun p => (p.2 - evalPoly c p.1) * p.1 ^ k)).sum = 0) :
    IsLSQPolyFit m pts c := by
  refine ⟨hlen, ?_⟩
  intro c' hc'
  have hc0 : (pts.map (fun p => (p.2 - evalPoly c p.1) * (p.1 ^ 0 * evalPoly c p.1))).sum = 0 :=
    orth_weighted pts c c 0 (fun k hk1 hk2 => horth k (by omega))
  have hc1 : (pts.map (fun p => (p.2 - evalPoly c p.1) * (p.1 ^ 0 * evalPoly c' p.1))).sum = 0 :=
    orth_weighted pts c c' 0 (fun k hk1 hk2 => horth k (by omega))
  have hcross : (pts.map (fun p =>
      (p.2 - evalPoly c p.1) * (evalPoly c p.1 - evalPoly c' p.1))).sum = 0 := by
    have hsplit : (pts.map (fun p =>
        (p.2 - evalPoly c p.1) * (evalPoly c p.1 - evalPoly c' p.1))).sum =
        (pts.map (fun p => (p.2 - evalPoly c p.1) * (p.1 ^ 0 * evalPoly c p.1))).sum -
        (pts.map (fun p => (p.2 - evalPoly c p.1) * (p.1 ^ 0 * evalPoly c' p.1))).sum := by
      rw [← lsum_sub]
      refine lsum_congr ?_
      intro p _
      ring
    rw [hsplit, hc0, hc1]
    ring
  have hexp := sse_split pts c c'
  have hnn : 0 ≤ (pts.map (fun p => (evalPoly c p.1 - evalPoly c' p.1) ^ 2)).sum :=
    lsum_nonneg (fun p _ => sq_nonneg _)
  rw [hexp, hcross]
  linarith

/-- Pointwise average of two coefficient vectors. -/
def avgCoeffs (c c' : List ℚ) : List ℚ := List.zipWith (fun a b => (a + b) / 2) c c'

theorem evalPoly_avg : ∀ (c c' : List ℚ), c.length = c'.length →
    ∀ x, evalPoly (avgCoeffs c c') x = (evalPoly c x + evalPoly c' x) / 2 := by
  intro c
  induction c with
  | nil =>
    intro c' hl x
    have : c' = [] := List.eq_nil_of_length_eq_zero hl.symm
    subst this
    simp [avgCoeffs, evalPoly]
  | cons a t ih =>
    intro c' hl x
    match c' with
    | [] => simp at hl
    | b :: t' =>
      simp only [List.length_cons, Nat.succ.injEq] at hl
      simp only [avgCoeffs, List.zipWith_cons_cons, evalPoly]
      rw [show List.zipWith (fun a b => (a + b) / 2) t t' = avgCoeffs t t' from rfl, ih t' hl x]
      ring

theorem avgCoeffs_length (c c' : List ℚ) :
    (avgCoeffs c c').length = min c.length c'.length := by
  simp [avgCoeffs]

/-- Any two least-squares fits of the same data produce identical fitted
values at every data point (the minimiser's predictions are unique even when
its coefficients are not). -/
theorem lsq_fitted_values_eq {m : ℕ} {pts : List (ℚ × ℚ)} {c c' : List ℚ}
    (hc : IsLSQPolyFit m pts c) (hc' : IsLSQPolyFit m pts c') :
    ∀ p ∈ pts, evalPoly c p.1 = evalPoly c' p.1 := by
  obtain ⟨hcl, hcmin⟩ := hc
  obtain ⟨hcl', hcmin'⟩ := hc'
  have hmidlen : (avgCoeffs c c').length = m := by
    rw [avgCoeffs_length, hcl, hcl']
    simp
  have heq : sseG pts c = sseG pts c' :=
    le_antisymm (hcmin c' hcl') (hcmin' c hcl)
  have hmid : sseG pts c ≤ sseG pts (avgCoeffs c c') := hcmin _ hmidlen
  have hlen : c.length = c'.length := by rw [hcl, hcl']
  have hmidval : sseG pts (avgCoeffs c c') =
      (sseG pts c + sseG pts c') / 2
      - (pts.map (fun p => (evalPoly c p.1 - evalPoly c' p.1) ^ 2)).sum / 4 := by
    unfold sseG
    have h1 : (pts.map (fun p => (p.2 - evalPoly (avgCoeffs c c') p.1) ^ 2)).sum =
        (pts.map (fun p => ((p.2 - evalPoly c p.1) ^ 2 + (p.2 - evalPoly c' p.1) ^ 2) / 2
          - (evalPoly c p.1 - evalPoly c' p.1) ^ 2 / 4)).sum := by
      refine lsum_congr ?_
      intro p _
      rw [evalPoly_avg c c' hlen]
      ring
    rw [h1, lsum_sub]
    have h2 : (pts.map (fun p => ((p.2 - evalPoly c p.1) ^ 2 + (p.2 - evalPoly c' p.1) ^ 2) / 2)).sum =
        ((pts.map (fun p => (p.2 - evalPoly c p.1) ^ 2)).sum
         + (pts.map (fun p => (p.2 - evalPoly c' p.1) ^ 2)).sum) / 2 := by
      have := lsum_smul pts (1/2)
        (fun p => (p.2 - evalPoly c p.1) ^ 2 + (p.2 - evalPoly c' p.1) ^ 2)
      rw [show (pts.map (fun p => ((p.2 - evalPoly c p.1) ^ 2 + (p.2 - evalPoly c' p.1) ^ 2) / 2)).sum
          = (pts.map (fun p => (1:ℚ)/2 * ((p.2 - evalPoly c p.1) ^ 2 + (p.2 - evalPoly c' p.1) ^ 2))).sum
        from lsum_congr (fun p _ => by ring)]
      rw [this, lsum_add]
      ring
    have h3 : (pts.map (fun p => (evalPoly c p.1 - evalPoly c' p.1) ^ 2 / 4)).sum =
        (pts.map (fun p => (evalPoly c p.1 - evalPoly c' p.1) ^ 2)).sum / 4 := by
      rw [show (pts.map (fun p => (evalPoly c p.1 - evalPoly c' p.1) ^ 2 / 4)).sum
          = (pts.map (fun p => (1:ℚ)/4 * (evalPoly c p.1 - evalPoly c' p.1) ^ 2)).sum
        from lsum_congr (fun p _ => by ring)]
      rw [lsum_smul]
      ring
    rw [h2, h3]
  have hq : (pts.map (fun p => (evalPoly c p.1 - evalPoly c' p.1) ^ 2)).sum ≤ 0 := by
    rw [hmidval, ← heq] at hmid
    linarith
  have hq0 : (pts.map (fun p => (evalPoly c p.1 - evalPoly c' p.1) ^ 2)).sum = 0 :=
    le_antisymm hq (lsum_nonneg (fun p _ => sq_nonneg _))
  intro p hp
  have := lsum_eq_zero_of_nonneg hq0 (fun q _ => sq_nonneg _) p hp
  have h := sq_eq_zero_iff.mp this
  linarith

/-- Bridge from coefficient lists to Mathlib polynomials (proof
infrastructure only). -/
noncomputable def toPoly : List ℚ → Polynomial ℚ
  | [] => 0
  | a :: as => Polynomial.C a + Polynomial.X * toPoly as

theorem toPoly_eval (l : List ℚ) (x : ℚ) : (toPoly l).eval x = evalPoly l x := by
  induction l with
  | nil => simp [toPoly, evalPoly]
  | cons a t ih => simp [toPoly, evalPoly, ih]

theorem toPoly_natDegree_lt : ∀ (l : List ℚ), l ≠ [] → (toPoly l).natDegree < l.length := by
  intro l
  induction l with
  | nil => intro h; exact absurd rfl h
  | cons a t ih =>
    intro _
    by_cases ht : t = []
    · subst ht
      have hz : (toPoly [a]).natDegree = 0 := by simp [toPoly]
      simp [hz]
    · have hlt := ih ht
      have h1 : (Polynomial.X * toPoly t).natDegree ≤ 1 + (toPoly t).natDegree := by
        calc (Polynomial.X * toPoly t).natDegree
            ≤ Polynomial.X.natDegree + (toPoly t).natDegree := Polynomial.natDegree_mul_le
          _ ≤ 1 + (toPoly t).natDegree := by
              have := Polynomial.natDegree_X_le (R := ℚ)
              omega
      have h2 : (Polynomial.C a + Polynomial.X * toPoly t).natDegree ≤ 1 + (toPoly t).natDegree := by
        calc (Polynomial.C a + Polynomial.X * toPoly t).natDegree
            ≤ max (Polynomial.C a).natDegree (Polynomial.X * toPoly t).natDegree :=
              Polynomial.natDegree_add_le _ _
          _ ≤ 1 + (toPoly t).natDegree := by
              have := Polynomial.natDegree_C (a := a)
              omega
      simp only [toPoly, List.length_cons]
      omega

/-- A set of at least `m` distinct wavelengths occurring among the sample
points: the condition making a degree-`m-1` fit well-posed. -/
def HasDistinctXs (pts : List (ℚ × ℚ)) (m : ℕ) : Prop :=
  ∃ s : Finset ℚ, m ≤ s.card ∧ ∀ x ∈ s, x ∈ pts.map Prod.fst

/-- Two length-`m` polynomials agreeing at `m` distinct points agree
everywhere. -/
theorem evalPoly_ext {m : ℕ} {pts : List (ℚ × ℚ)} {c c' : List ℚ}
    (hcl : c.length = m) (hcl' : c'.length = m) (hm : 0 < m)
    (hdist : HasDistinctXs pts m)
    (hagree : ∀ p ∈ pts, evalPoly c p.1 = evalPoly c' p.1) :
    ∀ x, evalPoly c x = evalPoly c' x := by
  obtain ⟨s, hcard, hmem⟩ := hdist
  have hc_ne : c ≠ [] := by intro h; rw [h] at hcl; simp at hcl; omega
  have hc'_ne : c' ≠ [] := by intro h; rw [h] at hcl'; simp at hcl'; omega
  set P := toPoly c - toPoly c' with hP
  have heval0 : ∀ x ∈ s, P.eval x = 0 := by
    intro x hx
    obtain ⟨p, hp, hpx⟩ := List.mem_map.mp (hmem x hx)
    have := hagree p hp
    rw [hP]
    simp only [Polynomial.eval_sub, toPoly_eval]
    rw [hpx] at this
    linarith
  have hdeg : P.natDegree < s.card := by
    have h1 : (toPoly c).natDegree < m := hcl ▸ toPoly_natDegree_lt c hc_ne
    have h2 : (toPoly c').natDegree < m := hcl' ▸ toPoly_natDegree_lt c' hc'_ne
    have : P.natDegree ≤ max (toPoly c).natDegree (toPoly c').natDegree :=
      Polynomial.natDegree_sub_le _ _
    omega
  have hPz : P = 0 := Polynomial.eq_zero_of_natDegree_lt_card_of_eval_eq_zero' P s heval0 hdeg
  intro x
  have : P.eval x = 0 := by rw [hPz]; simp
  rw [hP] at this
  simp only [Polynomial.eval_sub, toPoly_eval] at this
  linarith

/-- Coefficient-wise division of a polynomial scales its values. -/
theorem evalPoly_map_div (c : List ℚ) (M x : ℚ) :
    evalPoly (c.map (fun a => a / M)) x = evalPoly c x / M := by
  induction c with
  | nil => simp [evalPoly]
  | cons a t ih => simp [evalPoly, ih]; ring

theorem evalPoly_map_mul (c : List ℚ) (M x : ℚ) :
    evalPoly (c.map (fun a => a * M)) x = evalPoly c x * M := by
  induction c with
  | nil => simp [evalPoly]
  | cons a t ih => simp [evalPoly, ih]; ring

/-- Scaling every flux by `1 / M` scales the least-squares fit coefficients
by `1 / M`. -/
theorem isLSQ_scale {m : ℕ} {pts : List (ℚ × ℚ)} {c : List ℚ} {M : ℚ}
    (hM : M ≠ 0) (hc : IsLSQPolyFit m pts c) :
    IsLSQPolyFit m (pts.map (fun p => (p.1, p.2 / M))) (c.map (fun a => a / M)) := by
  obtain ⟨hcl, hmin⟩ := hc
  have hscale : ∀ d : List ℚ,
      sseG (pts.map (fun p => (p.1, p.2 / M))) d = sseG pts (d.map (fun a => a * M)) / M ^ 2 := by
    intro d
    unfold sseG
    rw [List.map_map]
    have h1 : (pts.map ((fun p => (p.2 - evalPoly d p.1) ^ 2) ∘ (fun p => (p.1, p.2 / M)))).sum
        = (pts.map (fun p => (1 / M ^ 2) * (p.2 - evalPoly (d.map (fun a => a * M)) p.1) ^ 2)).sum := by
      refine lsum_congr ?_
      intro p _
      simp only [Function.comp]
      rw [evalPoly_map_mul]
      field_simp
      ring
    rw [h1, lsum_smul]
    ring
  constructor
  · simp [hcl]
  · intro c' hc'
    rw [hscale, hscale]
    have hback : ((c.map (fun a => a / M)).map (fun a => a * M)) = c := by
      rw [List.map_map]
      have : ((fun a => a * M) ∘ (fun a => a / M)) = id := by
        funext a
        field_simp
      rw [this, List.map_id]
    rw [hback]
    have hlen' : (c'.map (fun a => a * M)).length = m := by simp [hc']
    have := hmin (c'.map (fun a => a * M)) hlen'
    have hM2 : (0:ℚ) ≤ M ^ 2 := sq_nonneg M
    exact div_le_div_of_nonneg_right this hM2

/-! ### Numpy array primitives: max, argmax, basic slicing -/

/-- `numpy.ndarray.max` on a (nonempty) array; `0` on the empty array. -/
def maxList : List ℚ → ℚ
  | [] => 0
  | x :: xs => xs.foldl max x

/-- `numpy.abs(a).max()`: the spec's "maximum absolute value". -/
def maxAbsList (l : List ℚ) : ℚ := maxList (l.map (fun v => |v|))

theorem foldl_max_div {M : ℚ} (hM : 0 < M) :
    ∀ (l : List ℚ) (a : ℚ), (l.map (fun v => v / M)).foldl max (a / M) = (l.foldl max a) / M := by
  intro l
  induction l with
  | nil => intro a; simp
  | cons x xs ih =>
    intro a
    simp only [List.map_cons, List.foldl_cons]
    rw [max_div_div_right hM.le, ih]

theorem maxList_map_div {M : ℚ} (hM : 0 < M) (l : List ℚ) :
    maxList (l.map (fun v => v / M)) = maxList l / M := by
  cases l with
  | nil => simp [maxList]
  | cons x xs => simp only [maxList, List.map_cons]; exact foldl_max_div hM xs x

theorem foldl_max_mem (l : List ℚ) (a : ℚ) : l.foldl max a = a ∨ l.foldl max a ∈ l := by
  induction l generalizing a with
  | nil => left; rfl
  | cons x xs ih =>
    simp only [List.foldl_cons]
    rcases ih (max a x) with h | h
    · rcases le_total a x with hax | hax
      · right; rw [h, max_eq_right hax]; simp
      · left; rw [h, max_eq_left hax]
    · right; simp [h]

theorem le_foldl_max (l : List ℚ) (a : ℚ) : a ≤ l.foldl max a := by
  induction l generalizing a with
  | nil => simp
  | cons x xs ih => exact le_trans (le_max_left a x) (ih (max a x))

theorem foldl_max_le_of_mem {l : List ℚ} {y : ℚ} (hy : y ∈ l) (a : ℚ) : y ≤ l.foldl max a := by
  induction l generalizing a with
  | nil => cases hy
  | cons x xs ih =>
    simp only [List.foldl_cons]
    rcases List.mem_cons.mp hy with rfl | hy'
    · exact le_trans (le_max_right a y) (le_foldl_max xs _)
    · exact ih hy' _

/-- `numpy.argmax`: index of the first occurrence of the maximum value. -/
def argmaxIdx : List ℚ → ℕ
  | [] => 0
  | x :: xs => if xs.all (fun y => decide (y ≤ x)) then 0 else argmaxIdx xs + 1

theorem argmaxIdx_lt_length : ∀ (l : List ℚ), l ≠ [] → argmaxIdx l < l.length := by
  intro l
  induction l with
  | nil => intro h; exact absurd rfl h
  | cons x xs ih =>
    intro _
    by_cases h : xs.all (fun y => decide (y ≤ x))
    · simp [argmaxIdx, h]
    · have hne : xs ≠ [] := by
        intro hnil
        rw [hnil] at h
        simp [List.all_nil] at h
      have := ih hne
      simp [argmaxIdx, h]
      omega

/-- Normalise a (possibly negative) python slice index for an array of
length `L`: negative indices count from the end, and the result is clamped
to `[0, L]`. -/
def sliceIdx (L : ℕ) (i : ℤ) : ℕ :=
  min ((if i < 0 then i + L else i).toNat) L

/-- Python / numpy basic slicing `xs[start:stop]` with integer (possibly
negative) bounds. -/
def pySlice {α : Type} (xs : List α) (start stop : ℤ) : List α :=
  (xs.take (sliceIdx xs.length stop)).drop (sliceIdx xs.length start)

theorem sliceIdx_of_nonneg_le {L : ℕ} {i : ℤ} (h0 : 0 ≤ i) (hL : i ≤ L) :
    sliceIdx L i = i.toNat := by
  unfold sliceIdx
  rw [if_neg (by omega)]
  omega

/-- When the window lies fully inside the array, numpy slicing
`xs[i-n : i+n+1]` returns exactly the `2n+1` elements centred at `i`. -/
theorem pySlice_centered (xs : List ℚ) (i n : ℕ) (hn : n ≤ i) (hub : i + n + 1 ≤ xs.length) :
    pySlice xs ((i : ℤ) - n) ((i : ℤ) + n + 1) =
      (List.range (2 * n + 1)).map (fun k => xs.getD (i - n + k) 0) := by
  unfold pySlice
  have hstart : sliceIdx xs.length ((i : ℤ) - n) = i - n := by
    rw [sliceIdx_of_nonneg_le (by omega) (by omega)]
    omega
  have hstop : sliceIdx xs.length ((i : ℤ) + n + 1) = i + n + 1 := by
    rw [sliceIdx_of_nonneg_le (by omega) (by omega)]
    omega
  rw [hstart, hstop]
  apply List.ext_getElem
  · simp only [List.length_drop, List.length_take, List.length_map, List.length_range]
    omega
  · intro k hk1 hk2
    have hlen : (List.take (i + n + 1) xs).length = i + n + 1 := by
      rw [List.length_take]
      omega
    have hk : k < 2 * n + 1 := by
      simp only [List.length_map, List.length_range] at hk2
      exact hk2
    have hkd : i - n + k < xs.length := by omega
    rw [List.getElem_drop, List.getElem_take]
    rw [List.getElem_map, List.getElem_range]
    rw [List.getD_eq_getElem xs 0 hkd]

/-! ### Quadratic least squares (numpy.polyfit, degree 2)

Power sums `S k` and moment sums `T k` of a data set, the normal equations
of the degree-2 fit, and its explicit Cramer solution. -/

def S (k : ℕ) (pts : List (ℚ × ℚ)) : ℚ := (pts.map (fun p => p.1 ^ k)).sum

def T (k : ℕ) (pts : List (ℚ × ℚ)) : ℚ := (pts.map (fun p => p.1 ^ k * p.2)).sum

/-- Determinant of the 3×3 normal-equation matrix of the degree-2 fit. -/
def det3 (pts : List (ℚ × ℚ)) : ℚ :=
  S 4 pts * (S 2 pts * S 0 pts - S 1 pts * S 1 pts)
  - S 3 pts * (S 3 pts * S 0 pts - S 1 pts * S 2 pts)
  + S 2 pts * (S 3 pts * S 1 pts - S 2 pts * S 2 pts)

/-- Modelled from the spec: `numpy.polyfit(x, y, deg=2)` (third-party, not
part of this repository's sources), the degree-2 polynomial least-squares
fit of section 4.5 "fit a degree-2 polynomial to the 2n+1 points centered
on the argmax".  Returned as `(a, b, c)` with `a` the leading coefficient,
matching numpy's highest-degree-first order, computed by Cramer's rule on
the normal equations.  Behaviour when the normal matrix is singular is not
modelled (numpy falls back to a pseudo-inverse there); all statements below
assume `det3 pts ≠ 0`. -/
def polyfit2 (pts : List (ℚ × ℚ)) : ℚ × ℚ × ℚ :=
  let s0 := S 0 pts; let s1 := S 1 pts; let s2 := S 2 pts
  let s3 := S 3 pts; let s4 := S 4 pts
  let t0 := T 0 pts; let t1 := T 1 pts; let t2 := T 2 pts
  let d := det3 pts
  if d = 0 then (0, 0, 0) else
    ((t2 * (s2 * s0 - s1 * s1) - s3 * (t1 * s0 - s1 * t0) + s2 * (t1 * s1 - s2 * t0)) / d,
     (s4 * (t1 * s0 - s1 * t0) - t2 * (s3 * s0 - s1 * s2) + s2 * (s3 * t0 - t1 * s2)) / d,
     (s4 * (s2 * t0 - t1 * s1) - s3 * (s3 * t0 - t1 * s2) + t2 * (s3 * s1 - s2 * s2)) / d)

/-- The normal equations of the degree-2 least-squares problem. -/
def NormalEq (pts : List (ℚ × ℚ)) (a b c : ℚ) : Prop :=
  S 4 pts * a + S 3 pts * b + S 2 pts * c = T 2 pts
  ∧ S 3 pts * a + S 2 pts * b + S 1 pts * c = T 1 pts
  ∧ S 2 pts * a + S 1 pts * b + S 0 pts * c = T 0 pts

theorem polyfit2_normalEq {pts : List (ℚ × ℚ)} (hd : det3 pts ≠ 0) :
    NormalEq pts (polyfit2 pts).1 (polyfit2 pts).2.1 (polyfit2 pts).2.2 := by
  unfold polyfit2
  rw [if_neg hd]
  unfold det3 at hd ⊢
  set s0 := S 0 pts; set s1 := S 1 pts; set s2 := S 2 pts
  set s3 := S 3 pts; set s4 := S 4 pts
  set t0 := T 0 pts; set t1 := T 1 pts; set t2 := T 2 pts
  refine ⟨?_, ?_, ?_⟩ <;> (field_simp; ring)

/-- Residual moment sums of the quadratic: the combination the normal
equations force to vanish. -/
theorem rsum_eq (pts : List (ℚ × ℚ)) (a b c : ℚ) (k : ℕ) :
    (pts.map (fun p => (p.2 - (a * p.1 ^ 2 + b * p.1 + c)) * p.1 ^ k)).sum =
      T k pts - (a * S (k + 2) pts + b * S (k + 1) pts + c * S k pts) := by
  unfold S T
  induction pts with
  | nil => simp
  | cons p t ih =>
    simp only [List.map_cons, List.sum_cons]
    rw [show ((t.map (fun p => (p.2 - (a * p.1 ^ 2 + b * p.1 + c)) * p.1 ^ k)).sum)
        = (t.map (fun p => p.1 ^ k * p.2)).sum
          - (a * (t.map (fun p => p.1 ^ (k + 2))).sum + b * (t.map (fun p => p.1 ^ (k + 1))).sum
             + c * (t.map (fun p => p.1 ^ k)).sum) from ih]
    ring

theorem normalEq_resid_orth {pts : List (ℚ × ℚ)} {a b c : ℚ} (h : NormalEq pts a b c) :
    ∀ k < 3, (pts.map (fun p => (p.2 - (a * p.1 ^ 2 + b * p.1 + c)) * p.1 ^ k)).sum = 0 := by
  obtain ⟨h2, h1, h0⟩ := h
  intro k hk
  interval_cases k <;> (rw [rsum_eq]; first
    | (rw [show (0:ℕ) + 2 = 2 from rfl, show (0:ℕ) + 1 = 1 from rfl]; linarith)
    | (rw [show (1:ℕ) + 2 = 3 from rfl, show (1:ℕ) + 1 = 2 from rfl]; linarith)
    | (rw [show (2:ℕ) + 2 = 4 from rfl, show (2:ℕ) + 1 = 3 from rfl]; linarith))

theorem evalPoly_quad (a b c x : ℚ) : evalPoly [c, b, a] x = a * x ^ 2 + b * x + c := by
  simp [evalPoly]
  ring

/-- With a nonsingular normal matrix, the Cramer solution `polyfit2` is an
ordinary least-squares degree-2 fit. -/
theorem polyfit2_isLSQ {pts : List (ℚ × ℚ)} (hd : det3 pts ≠ 0) :
    IsLSQPolyFit 3 pts
      [(polyfit2 pts).2.2, (polyfit2 pts).2.1, (polyfit2 pts).1] := by
  have hne := polyfit2_normalEq hd
  have horthq := normalEq_resid_orth hne
  refine orth_implies_lsq (by simp) ?_
  intro k hk
  have := horthq k hk
  rw [← this]
  refine lsum_congr ?_
  intro p _
  rw [evalPoly_quad]

/-! ### The Peak Locator (02_Cross_correlation_template.ipynb)

`index_peak = np.argmax(corr)`; `v = lag[index_peak]`;
`z = v / const.c.to('km/s')`;
`peak_lags = lag[index_peak-n : index_peak+n+1]` (and likewise for the
correlation values); `p = np.polyfit(peak_lags, peak_vals, deg=2)`;
`roots = np.roots(p)`; `v_fit = np.mean(roots)`;
`z = v_fit / const.c.to('km/s')`. -/

/-- Speed of light in km/s, `const.c.to('km/s')`. -/
def c_kms : ℚ := 299792458 / 1000

/-- Default half-window of the parabolic refinement (`n = 8` in the
notebook). -/
def nDefault : ℕ := 8

def indexPeak (corr : List ℚ) : ℕ := argmaxIdx corr

def vPeak (lag corr : List ℚ) : ℚ := lag.getD (indexPeak corr) 0

def zPeak (lag corr : List ℚ) : ℚ := vPeak lag corr / c_kms

def peakLags (lag corr : List ℚ) (n : ℕ) : List ℚ :=
  pySlice lag ((indexPeak corr : ℤ) - n) ((indexPeak corr : ℤ) + n + 1)

def peakVals (corr : List ℚ) (n : ℕ) : List ℚ :=
  pySlice corr ((indexPeak corr : ℤ) - n) ((indexPeak corr : ℤ) + n + 1)

/-- The quadratic coefficients fitted to the peak window. -/
def peakFit (lag corr : List ℚ) (n : ℕ) : ℚ × ℚ × ℚ :=
  polyfit2 ((peakLags lag corr n).zip (peakVals corr n))

/-- `v_fit = np.mean(np.roots(p))` for the degree-2 coefficient vector `p`:
the mean of the two roots of a quadratic `a x² + b x + c` (real or complex
conjugate) is `-b / (2a)`, the vertex abscissa — as the notebook itself
notes, "maximum lies at mid point between roots". -/
def vFitQ (lag corr : List ℚ) (n : ℕ) : ℚ :=
  -(peakFit lag corr n).2.1 / (2 * (peakFit lag corr n).1)

def zFit (lag corr : List ℚ) (n : ℕ) : ℚ := vFitQ lag corr n / c_kms

theorem peak_window_centered {lag corr : List ℚ} {n i : ℕ}
    (hi : indexPeak corr = i) (hlen : lag.length = corr.length)
    (hn : n ≤ i) (hub : i + n + 1 ≤ lag.length) :
    peakLags lag corr n = (List.range (2 * n + 1)).map (fun k => lag.getD (i - n + k) 0)
    ∧ peakVals corr n = (List.range (2 * n + 1)).map (fun k => corr.getD (i - n + k) 0) := by
  constructor
  · unfold peakLags
    rw [hi]
    exact pySlice_centered lag i n hn hub
  · unfold peakVals
    rw [hi]
    exact pySlice_centered corr i n hn (by omega)

end Jdat

namespace Jdat

/-- C1.  For every correlation curve with at least `2n+1` points around its
discrete maximum (and a nondegenerate normal matrix with a genuinely
quadratic fit), the Peak Locator's window is exactly the `2n+1` points
centred on the argmax, the fitted coefficients are the degree-2
least-squares fit of that window, the refined lag `v_fit` equals the
arithmetic mean of the two roots of the fitted quadratic, and each of the
two redshift outputs is its velocity estimate divided by the speed of
light. -/
theorem c1_peak_locator_refined_lag (lag corr : List ℚ) (n i : ℕ)
    (hi : indexPeak corr = i) (hlen : lag.length = corr.length)
    (hn : n ≤ i) (hub : i + n + 1 ≤ lag.length)
    (hdet : det3 ((peakLags lag corr n).zip (peakVals corr n)) ≠ 0)
    (hA : (peakFit lag corr n).1 ≠ 0) :
    (peakLags lag corr n = (List.range (2 * n + 1)).map (fun k => lag.getD (i - n + k) 0)
      ∧ peakVals corr n = (List.range (2 * n + 1)).map (fun k => corr.getD (i - n + k) 0))
    ∧ IsLSQPolyFit 3 ((peakLags lag corr n).zip (peakVals corr n))
        [(peakFit lag corr n).2.2, (peakFit lag corr n).2.1, (peakFit lag corr n).1]
    ∧ (∀ r₁ r₂ : ℚ,
        (∀ x : ℚ, (peakFit lag corr n).1 * x ^ 2 + (peakFit lag corr n).2.1 * x
            + (peakFit lag corr n).2.2
          = (peakFit lag corr n).1 * (x - r₁) * (x - r₂)) →
        vFitQ lag corr n = (r₁ + r₂) / 2)
    ∧ zPeak lag corr = vPeak lag corr / c_kms
    ∧ zFit lag corr n = vFitQ lag corr n / c_kms := by
  refine ⟨peak_window_centered hi hlen hn hub, ?_, ?_, rfl, rfl⟩
  · exact polyfit2_isLSQ hdet
  · intro r₁ r₂ hfac
    have h1 := hfac 1
    have h2 := hfac (-1)
    have hb : (peakFit lag corr n).2.1 = -((peakFit lag corr n).1 * (r₁ + r₂)) := by
      nlinarith [h1, h2]
    unfold vFitQ
    rw [hb]
    field_simp
    ring

/-- Example correlation data: a uniform lag grid and an exactly parabolic
correlation curve peaking at the central grid point. -/
def lagW : List ℚ := [-8, -7, -6, -5, -4, -3, -2, -1, 0, 1, 2, 3, 4, 5, 6, 7, 8]

def corrW : List ℚ :=
  [-39, -24, -11, 0, 9, 16, 21, 24, 25, 24, 21, 16, 9, 0, -11, -24, -39]

unseal Rat.add Rat.mul Rat.sub Rat.inv in
theorem c1_peak_locator_refined_lag_witness :
    vFitQ lagW corrW 8 = (5 + -5) / 2 ∧ zFit lagW corrW 8 = vFitQ lagW corrW 8 / c_kms := by
  have hf : peakFit lagW corrW 8 = (-1, 0, 25) := by decide
  have h := c1_peak_locator_refined_lag lagW corrW 8 8 (by decide) (by decide)
    (by decide) (by decide) (by decide) (by decide)
  refine ⟨h.2.2.1 5 (-5) ?_, h.2.2.2.2⟩
  intro x
  rw [hf]
  ring

/-- Ten-point lag grid and a correlation curve whose argmax (index 2) lies
within `n = 8` points of the lower end of the grid. -/
def lagE : List ℚ := [0, 1, 2, 3, 4, 5, 6, 7, 8, 9]

def corrE : List ℚ := [0, 0, 5, 0, 0, 0, 0, 0, 0, 0]

/-- C2.  Evaluation of the Peak Locator's window at a curve whose argmax
lies within `n` points of the lower edge of the lag grid: the python slice
`lag[index_peak-n : index_peak+n+1]` has a negative start index, which
python normalises by counting from the END of the array, so the window is
`[4, …, 9]` — the last six lags — rather than the claimed clip to the
available range `[0, …, 9]`; it does not even contain the argmax lag. -/
theorem c2_edge_window_wraps :
    indexPeak corrE = 2
    ∧ peakLags lagE corrE 8 = [4, 5, 6, 7, 8, 9]
    ∧ peakLags lagE corrE 8 ≠ [0, 1, 2, 3, 4, 5, 6, 7, 8, 9]
    ∧ lagE.getD (indexPeak corrE) 0 ∉ peakLags lagE corrE 8 := by
  refine ⟨by decide, by decide, by decide, by decide⟩

theorem zip_map_same {α β γ : Type} (f : α → β) (g : α → γ) (l : List α) :
    (l.map f).zip (l.map g) = l.map (fun x => (f x, g x)) := by
  induction l with
  | nil => simp
  | cons a t ih => simp [ih]

/-- C5.  For every correlation curve that is symmetric about a grid point
at which its (discrete) maximum lies — symmetric lag grid and symmetric
correlation values about index `i` — and whose peak-window quadratic fit is
well-posed, the parabolic-refined velocity estimate equals the
discrete-maximum velocity estimate exactly, and likewise for the two
redshift outputs. -/
theorem c5_symmetric_peak_agreement (lag corr : List ℚ) (n i : ℕ)
    (hi : indexPeak corr = i) (hlen : lag.length = corr.length)
    (hn : n ≤ i) (hub : i + n + 1 ≤ lag.length)
    (hsym : ∀ k ≤ n, lag.getD (i + k) 0 + lag.getD (i - k) 0 = 2 * lag.getD i 0
      ∧ corr.getD (i + k) 0 = corr.getD (i - k) 0)
    (hdet : det3 ((peakLags lag corr n).zip (peakVals corr n)) ≠ 0)
    (hA : (peakFit lag corr n).1 ≠ 0)
    (hvar : ∃ k, 1 ≤ k ∧ k ≤ n ∧ lag.getD (i + k) 0 ≠ lag.getD i 0) :
    vFitQ lag corr n = vPeak lag corr ∧ zFit lag corr n = zPeak lag corr := by
  set m := 2 * n + 1 with hm
  set L : ℕ → ℚ := fun k => lag.getD (i - n + k) 0 with hL
  set Y : ℕ → ℚ := fun k => corr.getD (i - n + k) 0 with hY
  set mC : ℚ := lag.getD i 0 with hmC
  obtain ⟨hwl, hwv⟩ := peak_window_centered hi hlen hn hub
  have hpts : (peakLags lag corr n).zip (peakVals corr n)
      = (List.range m).map (fun k => (L k, Y k)) := by
    rw [hwl, hwv, zip_map_same]
  set A : ℚ := (peakFit lag corr n).1 with hAdef
  set B : ℚ := (peakFit lag corr n).2.1 with hBdef
  set C : ℚ := (peakFit lag corr n).2.2 with hCdef
  have hne : NormalEq ((peakLags lag corr n).zip (peakVals corr n)) A B C :=
    polyfit2_normalEq hdet
  have horth := normalEq_resid_orth hne
  -- residual moment sums over the centred window, as sums over `range m`
  have hr0 : ((List.range m).map
      (fun k => (Y k - (A * (L k) ^ 2 + B * (L k) + C)) * (L k) ^ 0)).sum = 0 := by
    have := horth 0 (by omega)
    rw [hpts] at this
    rw [← this, List.map_map]
    rfl
  have hr1 : ((List.range m).map
      (fun k => (Y k - (A * (L k) ^ 2 + B * (L k) + C)) * (L k) ^ 1)).sum = 0 := by
    have := horth 1 (by omega)
    rw [hpts] at this
    rw [← this, List.map_map]
    rfl
  -- symmetry of the window about its centre
  have hpair : ∀ k < m, L k + L (2 * n - k) = 2 * mC ∧ Y k = Y (2 * n - k) := by
    intro k hk
    rcases le_or_lt n k with hkn | hkn
    · set j := k - n with hj
      have hjn : j ≤ n := by omega
      have e1 : i - n + k = i + j := by omega
      have e2 : i - n + (2 * n - k) = i - j := by omega
      have := hsym j hjn
      constructor
      · rw [hL]; simp only []; rw [e1, e2]; linarith [this.1]
      · rw [hY]; simp only []; rw [e1, e2]; exact this.2
    · set j := n - k with hj
      have hjn : j ≤ n := by omega
      have e1 : i - n + k = i - j := by omega
      have e2 : i - n + (2 * n - k) = i + j := by omega
      have := hsym j hjn
      constructor
      · rw [hL]; simp only []; rw [e1, e2]; linarith [this.1]
      · rw [hY]; simp only []; rw [e1, e2]; exact (this.2).symm
  have hLn : L n = mC := by
    rw [hL]; simp only []
    congr 1
    omega
  -- the centred first-moment residual sum
  have hcent : ((List.range m).map
      (fun k => (Y k - (A * (L k) ^ 2 + B * (L k) + C)) * (L k - mC))).sum = 0 := by
    have hsplit : ((List.range m).map
        (fun k => (Y k - (A * (L k) ^ 2 + B * (L k) + C)) * (L k - mC))).sum
        = ((List.range m).map
            (fun k => (Y k - (A * (L k) ^ 2 + B * (L k) + C)) * (L k) ^ 1)).sum
          - mC * ((List.range m).map
            (fun k => (Y k - (A * (L k) ^ 2 + B * (L k) + C)) * (L k) ^ 0)).sum := by
      rw [← lsum_smul, ← lsum_sub]
      refine lsum_congr ?_
      intro k _
      ring
    rw [hsplit, hr0, hr1]
    ring
  -- expand the residual in powers of the centred coordinate
  set Bt : ℚ := B + 2 * A * mC with hBt
  set Ct : ℚ := A * mC ^ 2 + B * mC + C with hCt
  have hexpand : ((List.range m).map
      (fun k => (Y k - (A * (L k) ^ 2 + B * (L k) + C)) * (L k - mC))).sum
      = ((List.range m).map (fun k => Y k * (L k - mC))).sum
        - A * ((List.range m).map (fun k => (L k - mC) ^ 3)).sum
        - Bt * ((List.range m).map (fun k => (L k - mC) ^ 2)).sum
        - Ct * ((List.range m).map (fun k => L k - mC)).sum := by
    rw [← lsum_smul, ← lsum_smul, ← lsum_smul, ← lsum_sub, ← lsum_sub, ← lsum_sub]
    refine lsum_congr ?_
    intro k _
    rw [hBt, hCt]
    ring
  -- the odd symmetric sums vanish
  have hodd1 : ((List.range m).map (fun k => Y k * (L k - mC))).sum = 0 := by
    refine lsum_reflect_zero m _ ?_
    intro k hk
    have h := hpair k hk
    have hm1 : m - 1 - k = 2 * n - k := by omega
    have hflip : L (2 * n - k) - mC = -(L k - mC) := by linarith [h.1]
    rw [hm1, ← h.2, hflip]
    ring
  have hodd3 : ((List.range m).map (fun k => (L k - mC) ^ 3)).sum = 0 := by
    refine lsum_reflect_zero m _ ?_
    intro k hk
    have h := hpair k hk
    have hm1 : m - 1 - k = 2 * n - k := by omega
    have hflip : L (2 * n - k) - mC = -(L k - mC) := by linarith [h.1]
    rw [hm1, hflip]
    ring
  have hodd0 : ((List.range m).map (fun k => L k - mC)).sum = 0 := by
    refine lsum_reflect_zero m _ ?_
    intro k hk
    have h := hpair k hk
    have hm1 : m - 1 - k = 2 * n - k := by omega
    rw [hm1]
    linarith [h.1]
  have hBtS : Bt * ((List.range m).map (fun k => (L k - mC) ^ 2)).sum = 0 := by
    rw [hexpand, hodd1, hodd3, hodd0] at hcent
    linarith
  -- the centred second moment is positive
  have hS2pos : 0 < ((List.range m).map (fun k => (L k - mC) ^ 2)).sum := by
    obtain ⟨k₁, hk1, hk2, hk3⟩ := hvar
    have hmem : n + k₁ ∈ List.range m := by
      rw [List.mem_range]
      omega
    have hterm : 0 < (L (n + k₁) - mC) ^ 2 := by
      have hidx : i - n + (n + k₁) = i + k₁ := by omega
      have : L (n + k₁) = lag.getD (i + k₁) 0 := by
        rw [hL]; simp only []; rw [hidx]
      rw [this]
      have hne' : lag.getD (i + k₁) 0 - mC ≠ 0 := by
        rw [hmC]
        intro hcon
        exact hk3 (by linarith)
      positivity
    calc (0:ℚ) < (L (n + k₁) - mC) ^ 2 := hterm
      _ ≤ ((List.range m).map (fun k => (L k - mC) ^ 2)).sum :=
          le_lsum_of_mem hmem (fun y _ => sq_nonneg _)
  have hBt0 : Bt = 0 := by
    rcases mul_eq_zero.mp hBtS with h | h
    · exact h
    · exact absurd h (by linarith)
  have hB : B = -(2 * A * mC) := by
    rw [hBt] at hBt0
    linarith
  have hv : vFitQ lag corr n = mC := by
    unfold vFitQ
    rw [← hBdef, ← hAdef, hB]
    field_simp
  have hvp : vPeak lag corr = mC := by
    unfold vPeak
    rw [hi, hmC]
  refine ⟨by rw [hv, hvp], ?_⟩
  unfold zFit zPeak
  rw [hv, hvp]

unseal Rat.add Rat.mul Rat.sub Rat.inv in
theorem c5_symmetric_peak_agreement_witness :
    vFitQ lagW corrW 8 = vPeak lagW corrW ∧ zFit lagW corrW 8 = zPeak lagW corrW :=
  c5_symmetric_peak_agreement lagW corrW 8 8 (by decide) (by decide) (by decide)
    (by decide) (by decide) (by decide) (by decide)
    ⟨1, by decide, by decide, by decide⟩

/-! ### The Continuum Estimator: spectral-window masks

From the notebooks, e.g.
`mask = ((wave_200 > 1.75) & (wave_200 < 1.97)) | ((wave_200 > 2.08) & (wave_200 < 2.23))`
followed by `continuum.fit_generic_continuum` on `wave[mask]`, `flux[mask]`. -/

/-- The boolean window mask: `w` lies strictly inside some `(low, high)`
bound. -/
def inAnyWindow (bounds : List (ℚ × ℚ)) (w : ℚ) : Bool :=
  bounds.any (fun b => decide (b.1 < w) && decide (w < b.2))

/-- Numpy boolean-mask selection `wave[mask]`, `flux[mask]` applied to the
zipped sample list. -/
def selectWindows (bounds : List (ℚ × ℚ)) (pts : List (ℚ × ℚ)) : List (ℚ × ℚ) :=
  pts.filter (fun p => inAnyWindow bounds p.1)

/-- The Continuum Estimator contract: `c` is an ordinary least-squares
degree-`m-1` fit of the samples selected by the windows (the fit itself is
the spec-modelled `IsLSQPolyFit`). -/
def ContinuumFitOn (bounds : List (ℚ × ℚ)) (m : ℕ) (pts : List (ℚ × ℚ)) (c : List ℚ) : Prop :=
  IsLSQPolyFit m (selectWindows bounds pts) c

/-- C7.  The Continuum Estimator selects exactly the samples whose
wavelength lies strictly inside some `(low, high)` bound and fits by least
squares on that selected subset; a bound containing no sample of the
spectrum (in particular one lying entirely outside its domain) contributes
nothing: the selection and hence the fit are unchanged when it is added. -/
theorem c7_continuum_estimator_selection (bounds : List (ℚ × ℚ)) (pts : List (ℚ × ℚ))
    (b : ℚ × ℚ) (m : ℕ) (c : List ℚ)
    (hb : ∀ p ∈ pts, ¬(b.1 < p.1 ∧ p.1 < b.2)) :
    (∀ p, p ∈ selectWindows bounds pts ↔ p ∈ pts ∧ ∃ w ∈ bounds, w.1 < p.1 ∧ p.1 < w.2)
    ∧ selectWindows (b :: bounds) pts = selectWindows bounds pts
    ∧ (ContinuumFitOn (b :: bounds) m pts c ↔ ContinuumFitOn bounds m pts c) := by
  have hsel : selectWindows (b :: bounds) pts = selectWindows bounds pts := by
    unfold selectWindows
    refine List.filter_congr ?_
    intro p hp
    unfold inAnyWindow
    simp only [List.any_cons]
    have := hb p hp
    have hfalse : (decide (b.1 < p.1) && decide (p.1 < b.2)) = false := by
      by_contra hcon
      rw [Bool.not_eq_false, Bool.and_eq_true, decide_eq_true_eq, decide_eq_true_eq] at hcon
      exact this hcon
    rw [hfalse, Bool.false_or]
  refine ⟨?_, hsel, ?_⟩
  · intro p
    unfold selectWindows inAnyWindow
    rw [List.mem_filter]
    simp only [List.any_eq_true, Bool.and_eq_true, decide_eq_true_eq]
  · unfold ContinuumFitOn
    rw [hsel]

unseal Rat.add Rat.mul Rat.sub Rat.inv Rat.ofScientific in
theorem c7_continuum_estimator_selection_witness :
    selectWindows ((5, 6) :: [(1.75, 1.97), (2.08, 2.23)]) [((1.8:ℚ), 5), (2.0, 7), (2.1, 3)]
      = selectWindows [(1.75, 1.97), (2.08, 2.23)] [((1.8:ℚ), 5), (2.0, 7), (2.1, 3)]
    ∧ ((1.8:ℚ), (5:ℚ)) ∈ selectWindows [(1.75, 1.97), (2.08, 2.23)]
        [((1.8:ℚ), 5), (2.0, 7), (2.1, 3)] := by
  have h := c7_continuum_estimator_selection [(1.75, 1.97), (2.08, 2.23)]
    [((1.8:ℚ), 5), (2.0, 7), (2.1, 3)] (5, 6) 1 [0] (by decide)
  refine ⟨h.2.1, ?_⟩
  rw [h.1 ((1.8:ℚ), (5:ℚ))]
  refine ⟨by decide, (1.75, 1.97), by decide, by decide, by decide⟩

/-! ### The Line-Residual Builder and idempotence of continuum removal -/

/-- The Line-Residual Builder: evaluate the continuum model over the full
wavelength grid and subtract (`flux_200_sub = flux_200 - continuum_200(wave_200)`). -/
def residualPts (c : List ℚ) (pts : List (ℚ × ℚ)) : List (ℚ × ℚ) :=
  pts.map (fun p => (p.1, p.2 - evalPoly c p.1))

theorem selectWindows_map_flux (ws : List (ℚ × ℚ)) (g : ℚ × ℚ → ℚ) (pts : List (ℚ × ℚ)) :
    selectWindows ws (pts.map (fun p => (p.1, g p)))
      = (selectWindows ws pts).map (fun p => (p.1, g p)) := by
  unfold selectWindows
  induction pts with
  | nil => simp
  | cons p t ih =>
    simp only [List.map_cons]
    by_cases h : inAnyWindow ws p.1
    · rw [List.filter_cons_of_pos (by simpa using h), List.filter_cons_of_pos (by simpa using h)]
      simp [ih]
    · rw [List.filter_cons_of_neg (by simpa using h), List.filter_cons_of_neg (by simpa using h)]
      exact ih

theorem evalPoly_replicate_zero (m : ℕ) (x : ℚ) : evalPoly (List.replicate m 0) x = 0 := by
  induction m with
  | zero => simp [evalPoly]
  | succ k ih => simp [List.replicate_succ, evalPoly, ih]

theorem evalPoly_zipWith_add : ∀ (c c' : List ℚ), c.length = c'.length →
    ∀ x, evalPoly (List.zipWith (· + ·) c c') x = evalPoly c x + evalPoly c' x := by
  intro c
  induction c with
  | nil =>
    intro c' hl x
    have : c' = [] := List.eq_nil_of_length_eq_zero hl.symm
    subst this
    simp [evalPoly]
  | cons a t ih =>
    intro c' hl x
    match c' with
    | [] => simp at hl
    | b :: t' =>
      simp only [List.length_cons, Nat.succ.injEq] at hl
      simp only [List.zipWith_cons_cons, evalPoly]
      rw [ih t' hl x]
      ring

/-- C6.  Applying the Continuum Estimator (same windows, same degree) to a
residual spectrum whose continuum has already been subtracted yields the
zero continuum model exactly — the zero coefficient vector is a
least-squares fit of the residual's window samples, and (when the fit is
well-posed) every least-squares fit evaluates to zero everywhere, so a
second Line-Residual pass leaves the residual spectrum unchanged. -/
theorem c6_continuum_removal_idempotent (wave flux : List ℚ) (ws : List (ℚ × ℚ))
    (m : ℕ) (c₁ : List ℚ) (hm : 0 < m)
    (hc₁ : ContinuumFitOn ws m (wave.zip flux) c₁)
    (hdist : HasDistinctXs (selectWindows ws (wave.zip flux)) m) :
    IsLSQPolyFit m (selectWindows ws (residualPts c₁ (wave.zip flux))) (List.replicate m 0)
    ∧ ∀ c₂, IsLSQPolyFit m (selectWindows ws (residualPts c₁ (wave.zip flux))) c₂ →
        ∀ p ∈ residualPts c₁ (wave.zip flux), p.2 - evalPoly c₂ p.1 = p.2 := by
  unfold ContinuumFitOn at hc₁
  obtain ⟨hc₁l, hc₁min⟩ := hc₁
  set sel := selectWindows ws (wave.zip flux) with hseldef
  have hsel2 : selectWindows ws (residualPts c₁ (wave.zip flux))
      = sel.map (fun p => (p.1, p.2 - evalPoly c₁ p.1)) := by
    unfold residualPts
    exact selectWindows_map_flux ws (fun p => p.2 - evalPoly c₁ p.1) (wave.zip flux)
  -- sum of squared residuals of the residual spectrum against `c'` equals
  -- that of the original spectrum against `c₁ + c'`
  have hshift : ∀ c' : List ℚ, c'.length = m →
      sseG (sel.map (fun p => (p.1, p.2 - evalPoly c₁ p.1))) c'
        = sseG sel (List.zipWith (· + ·) c₁ c') := by
    intro c' hc'
    unfold sseG
    rw [List.map_map]
    refine lsum_congr ?_
    intro p _
    simp only [Function.comp]
    rw [evalPoly_zipWith_add c₁ c' (by rw [hc₁l, hc']) p.1]
    ring
  have hzero_lsq : IsLSQPolyFit m (sel.map (fun p => (p.1, p.2 - evalPoly c₁ p.1)))
      (List.replicate m 0) := by
    refine ⟨by simp, ?_⟩
    intro c' hc'
    rw [hshift c' hc', hshift (List.replicate m 0) (by simp)]
    have hid : List.zipWith (· + ·) c₁ (List.replicate m 0) = c₁ := by
      have : ∀ (l : List ℚ) (k : ℕ), List.zipWith (· + ·) l (List.replicate k 0)
          = l.take k := by
        intro l
        induction l with
        | nil => intro k; simp
        | cons a t ihl =>
          intro k
          cases k with
          | zero => simp
          | succ k' => simp [List.replicate_succ, ihl k']
      rw [this c₁ m, ← hc₁l, List.take_length]
    rw [hid]
    exact hc₁min _ (by simp [List.length_zipWith, hc₁l, hc'])
  rw [hsel2]
  refine ⟨hzero_lsq, ?_⟩
  intro c₂ hc₂ p hp
  have hagree := lsq_fitted_values_eq hc₂ hzero_lsq
  have hdist2 : HasDistinctXs (sel.map (fun p => (p.1, p.2 - evalPoly c₁ p.1))) m := by
    obtain ⟨s, hcard, hmem⟩ := hdist
    refine ⟨s, hcard, ?_⟩
    intro x hx
    have := hmem x hx
    rw [List.map_map]
    simpa using this
  have hext := evalPoly_ext hc₂.1 (by simp) hm hdist2 hagree
  have : evalPoly c₂ p.1 = 0 := by
    rw [hext p.1, evalPoly_replicate_zero]
  rw [this]
  ring

unseal Rat.add Rat.mul Rat.sub Rat.inv in
theorem c6_continuum_removal_idempotent_witness :
    IsLSQPolyFit 2
      (selectWindows [(-1, 3)] (residualPts [5/6, 3/2] ([(0:ℚ), 1, 2].zip [1, 2, 4])))
      (List.replicate 2 0)
    ∧ ∀ p ∈ residualPts [5/6, 3/2] ([(0:ℚ), 1, 2].zip [1, 2, 4]),
        p.2 - evalPoly (List.replicate 2 0) p.1 = p.2 := by
  have h := c6_continuum_removal_idempotent [(0:ℚ), 1, 2] [1, 2, 4] [(-1, 3)] 2 [5/6, 3/2]
    (by omega) (orth_implies_lsq (by decide) (by decide)) ⟨{0, 1}, by decide, by decide⟩
  exact ⟨h.1, h.2 (List.replicate 2 0) h.1⟩

/-! ### Row-resolved loops (03_Spatially_resolved_emission_line_map.ipynb)

`for yy in range(len(data_2d[:, 0])): ... flux_cont2d[yy, :] = cont(wave_2d[yy, :])`
and the three-map cutout loop over `cut_hb`, `cut_o3b`, `cut_o3r`.  Each
iteration reads only row `yy` of the inputs and writes only row `yy` of the
outputs; the fits are abstract parameters (third-party library calls). -/

/-- A row-writing loop: `for yy in order: M[yy] = f(yy)`, starting from the
initial output array `init`. -/
def runRows {α : Type} (f : ℕ → α) (order : List ℕ) (init : ℕ → α) : ℕ → α :=
  order.foldl (fun M yy => Function.update M yy (f yy)) init

theorem runRows_eq {α : Type} (f : ℕ → α) (order : List ℕ) (init : ℕ → α) (r : ℕ) :
    runRows f order init r = if r ∈ order then f r else init r := by
  induction order generalizing init with
  | nil => simp [runRows]
  | cons a t ih =>
    show runRows f t (Function.update init a (f a)) r = _
    rw [ih]
    by_cases hrt : r ∈ t
    · simp [hrt, List.mem_cons]
    · by_cases hra : r = a
      · subst hra
        simp [hrt, Function.update_same]
      · simp [hrt, hra, Function.update_noteq hra]

/-- The continuum windows of the row loop, from the source:
`(wave > 1.75) & (wave < 1.97) | (wave > 2.08) & (wave < 2.23)`. -/
def contWindows : List (ℚ × ℚ) := [(1.75, 1.97), (2.08, 2.23)]

/-- The line-fit window of the cutout loop, from the source:
`(1.4 < wave) & (wave < 1.65)`. -/
def cutWindow : List (ℚ × ℚ) := [(1.4, 1.65)]

/-- One row of the continuum loop.  `fitF` stands for
`continuum.fit_generic_continuum` with the degree-7 model.  Modelled from
the spec: the third-party fit (not under src/) does not raise on a
degenerate row; per section 7 (DegenerateFitError) a failed row fit is
propagated as a degenerate zero/NaN continuum, here `none` evaluated as the
zero row. -/
def contRow (fitF : List (ℚ × ℚ) → Option (List ℚ)) (waveRow dataRow : List ℚ) : List ℚ :=
  match fitF (selectWindows contWindows (waveRow.zip dataRow)) with
  | none => waveRow.map (fun _ => 0)
  | some c => waveRow.map (fun w => evalPoly c w)

/-- The 2D continuum loop `flux_cont2d`, parametrised by the iteration
order (the source iterates `range(nrows)`); the output array is initialised
to `data_2d * 0`. -/
def flux_cont2d (fitF : List (ℚ × ℚ) → Option (List ℚ)) (wave2d data2d : ℕ → List ℚ)
    (order : List ℕ) : ℕ → List ℚ :=
  runRows (fun yy => contRow fitF (wave2d yy) (data2d yy)) order
    (fun yy => (data2d yy).map (fun _ => 0))

/-- `np.argmin(np.abs(target - l))`: index of the first element minimising
the absolute deviation from `target`. -/
def argminAbsIdx (target : ℚ) : List ℚ → ℕ
  | [] => 0
  | x :: xs =>
    if xs.all (fun y => decide (|target - x| ≤ |target - y|)) then 0
    else argminAbsIdx target xs + 1

/-- One row of the emission-line cutout loop.  `fitG` stands for
`fit_lines(spectrum_cut, g1+g2+g3)`; modelled from the spec: the
third-party fit (not under src/) yields the three fitted component models
as evaluable functions and, per section 7, a failed row fit degrades to a
degenerate zero row instead of raising.  The cutout slices
`int(index_lamcen - rsq/2.) : int(index_lamcen + rsq/2.)` are modelled with
`rsq / 2` in integer arithmetic (exact for the even image sides the
notebook uses). -/
def cutRow (fitG : List (ℚ × ℚ) → Option ((ℚ → ℚ) × (ℚ → ℚ) × (ℚ → ℚ))) (rsq : ℕ)
    (lamcenHb lamcenO3b lamcenO3r : ℚ) (waveRow lineRow : List ℚ) :
    List ℚ × List ℚ × List ℚ :=
  match fitG (selectWindows cutWindow (waveRow.zip lineRow)) with
  | none => (List.replicate rsq 0, List.replicate rsq 0, List.replicate rsq 0)
  | some g =>
    let comp := fun (gc : ℚ → ℚ) (lamcen : ℚ) =>
      let idx := argminAbsIdx lamcen waveRow
      pySlice (waveRow.map gc) ((idx : ℤ) - (rsq / 2 : ℕ)) ((idx : ℤ) + (rsq / 2 : ℕ))
    (comp g.1 lamcenHb, comp g.2.1 lamcenO3b, comp g.2.2 lamcenO3r)

/-- The cutout loop over `cut_hb`, `cut_o3b`, `cut_o3r`, parametrised by
iteration order; outputs are initialised to `np.zeros((rsq, rsq))`. -/
def cutMaps (fitG : List (ℚ × ℚ) → Option ((ℚ → ℚ) × (ℚ → ℚ) × (ℚ → ℚ))) (rsq : ℕ)
    (lamcenHb lamcenO3b lamcenO3r : ℚ) (wave2d line2d : ℕ → List ℚ)
    (order : List ℕ) : ℕ → List ℚ × List ℚ × List ℚ :=
  runRows (fun yy => cutRow fitG rsq lamcenHb lamcenO3b lamcenO3r (wave2d yy) (line2d yy))
    order (fun _ => (List.replicate rsq 0, List.replicate rsq 0, List.replicate rsq 0))

/-- C3.  In the row-resolved loops, every row `yy < nrows` of the output is
exactly that row's own computation, whatever the fit does on any other row;
and a row whose continuum fit or multi-component line fit fails (returns
`none`) produces the degenerate zero row while the loop continues — no
single row's failure affects, or aborts, any other row. -/
theorem c3_row_failures_degrade_gracefully
    (fitF : List (ℚ × ℚ) → Option (List ℚ))
    (fitG : List (ℚ × ℚ) → Option ((ℚ → ℚ) × (ℚ → ℚ) × (ℚ → ℚ)))
    (wave2d data2d line2d : ℕ → List ℚ) (rsq : ℕ) (lamcenHb lamcenO3b lamcenO3r : ℚ)
    (nrows yy : ℕ) (hy : yy < nrows) :
    (flux_cont2d fitF wave2d data2d (List.range nrows) yy
      = contRow fitF (wave2d yy) (data2d yy))
    ∧ (fitF (selectWindows contWindows ((wave2d yy).zip (data2d yy))) = none →
        flux_cont2d fitF wave2d data2d (List.range nrows) yy = (wave2d yy).map (fun _ => 0))
    ∧ (cutMaps fitG rsq lamcenHb lamcenO3b lamcenO3r wave2d line2d (List.range nrows) yy
      = cutRow fitG rsq lamcenHb lamcenO3b lamcenO3r (wave2d yy) (line2d yy))
    ∧ (fitG (selectWindows cutWindow ((wave2d yy).zip (line2d yy))) = none →
        cutMaps fitG rsq lamcenHb lamcenO3b lamcenO3r wave2d line2d (List.range nrows) yy
          = (List.replicate rsq 0, List.replicate rsq 0, List.replicate rsq 0)) := by
  have h1 : flux_cont2d fitF wave2d data2d (List.range nrows) yy
      = contRow fitF (wave2d yy) (data2d yy) := by
    unfold flux_cont2d
    rw [runRows_eq]
    simp [List.mem_range, hy]
  have h2 : cutMaps fitG rsq lamcenHb lamcenO3b lamcenO3r wave2d line2d (List.range nrows) yy
      = cutRow fitG rsq lamcenHb lamcenO3b lamcenO3r (wave2d yy) (line2d yy) := by
    unfold cutMaps
    rw [runRows_eq]
    simp [List.mem_range, hy]
  refine ⟨h1, ?_, h2, ?_⟩
  · intro hfail
    rw [h1]
    unfold contRow
    rw [hfail]
  · intro hfail
    rw [h2]
    unfold cutRow
    rw [hfail]

theorem c3_row_failures_degrade_gracefully_witness :
    flux_cont2d (fun _ => none) (fun _ => [1, 2]) (fun _ => [3, 4]) (List.range 2) 0
      = [0, 0]
    ∧ cutMaps (fun _ => none) 2 1 1 1 (fun _ => [1, 2]) (fun _ => [3, 4]) (List.range 2) 0
      = ([0, 0], [0, 0], [0, 0]) := by
  have h := c3_row_failures_degrade_gracefully (fun _ => none) (fun _ => none)
    (fun _ => [1, 2]) (fun _ => [3, 4]) (fun _ => [3, 4]) 2 1 1 1 2 0 (by omega)
  refine ⟨?_, ?_⟩
  · rw [h.2.1 rfl]; rfl
  · rw [h.2.2.2 rfl]; rfl

/-- C8.  The row-resolved loops read only row `yy` of the inputs and write
only row `yy` of the outputs, so executing the per-row loop in ANY order
(any permutation of `range nrows`) produces outputs identical to the
sequential loop — and every processed row equals the independent per-row
map. -/
theorem c8_row_loops_order_independent
    (fitF : List (ℚ × ℚ) → Option (List ℚ))
    (fitG : List (ℚ × ℚ) → Option ((ℚ → ℚ) × (ℚ → ℚ) × (ℚ → ℚ)))
    (wave2d data2d line2d : ℕ → List ℚ) (rsq : ℕ) (lamcenHb lamcenO3b lamcenO3r : ℚ)
    (nrows : ℕ) (order : List ℕ) (hperm : order.Perm (List.range nrows)) (yy : ℕ) :
    (flux_cont2d fitF wave2d data2d order yy
      = flux_cont2d fitF wave2d data2d (List.range nrows) yy)
    ∧ (cutMaps fitG rsq lamcenHb lamcenO3b lamcenO3r wave2d line2d order yy
      = cutMaps fitG rsq lamcenHb lamcenO3b lamcenO3r wave2d line2d (List.range nrows) yy)
    ∧ (yy < nrows →
        flux_cont2d fitF wave2d data2d order yy = contRow fitF (wave2d yy) (data2d yy)) := by
  have hmem : yy ∈ order ↔ yy ∈ List.range nrows := hperm.mem_iff
  have h1 : flux_cont2d fitF wave2d data2d order yy
      = flux_cont2d fitF wave2d data2d (List.range nrows) yy := by
    unfold flux_cont2d
    rw [runRows_eq, runRows_eq]
    by_cases hin : yy ∈ List.range nrows
    · simp [hin, hmem.mpr hin]
    · have hnin : yy ∉ order := fun h => hin (hmem.mp h)
      simp [hin, hnin]
  have h2 : cutMaps fitG rsq lamcenHb lamcenO3b lamcenO3r wave2d line2d order yy
      = cutMaps fitG rsq lamcenHb lamcenO3b lamcenO3r wave2d line2d (List.range nrows) yy := by
    unfold cutMaps
    rw [runRows_eq, runRows_eq]
    by_cases hin : yy ∈ List.range nrows
    · simp [hin, hmem.mpr hin]
    · have hnin : yy ∉ order := fun h => hin (hmem.mp h)
      simp [hin, hnin]
  refine ⟨h1, h2, ?_⟩
  intro hy
  rw [h1]
  unfold flux_cont2d
  rw [runRows_eq]
  simp [List.mem_range, hy]

theorem c8_row_loops_order_independent_witness :
    flux_cont2d (fun _ => some [1]) (fun yy => [(yy : ℚ)]) (fun _ => [3]) [1, 0] 0
      = flux_cont2d (fun _ => some [1]) (fun yy => [(yy : ℚ)]) (fun _ => [3]) (List.range 2) 0
    ∧ cutMaps (fun _ => none) 1 1 1 1 (fun yy => [(yy : ℚ)]) (fun _ => [3]) [1, 0] 0
      = cutMaps (fun _ => none) 1 1 1 1 (fun yy => [(yy : ℚ)]) (fun _ => [3]) (List.range 2) 0 := by
  have h := c8_row_loops_order_independent (fun _ => some [1]) (fun _ => none)
    (fun yy => [(yy : ℚ)]) (fun _ => [3]) (fun _ => [3]) 1 1 1 1 2 [1, 0] (by decide) 0
  exact ⟨h.1, h.2.1⟩

/-! ### read_hdf5 (02_Cross_correlation_template.ipynb) -/

/-- An HDF5 dataset as `read_hdf5` sees it: the optional
`'wavelength_units'` attribute (absent raises `KeyError`, which the source
catches) and the numeric data as a list of rows.  Python strings are
modelled as `List Char`. -/
structure H5Dataset where
  wavelengthUnits : Option (List Char)
  data : List (List ℚ)
deriving DecidableEq

structure SpecEntry where
  wavelengths : List ℚ
  fluxes : List ℚ
deriving DecidableEq

/-- Python's `str.lower()` (characterwise, which agrees with python on the
ASCII unit names involved). -/
def pyLower (s : List Char) : List Char := s.map Char.toLower

/-- The unit-string computation of `read_hdf5`: default `'micron'` when the
attribute is missing (the `try/except KeyError` branch), then singularise
the common plural unit names by dropping the final character
(`wave_units_string[0:-1]`). -/
def waveUnitsString (d : H5Dataset) : List Char :=
  let s := d.wavelengthUnits.getD "micron".toList
  if pyLower s ∈ ["microns".toList, "angstroms".toList, "nanometers".toList]
  then s.dropLast else s

/-- `read_hdf5`: for every key, `waves = dataset[0]`, `fluxes = dataset[1]`,
collected into `contents[int(key)]`.  Keys are modelled already converted
by `int(key)`; an out-of-range row access (python would raise `IndexError`)
is totalised as the empty row and excluded by hypothesis in the theorems
below. -/
def read_hdf5 (entries : List (ℤ × H5Dataset)) : List (ℤ × SpecEntry) :=
  entries.map (fun kd => (kd.1, ⟨kd.2.data.getD 0 [], kd.2.data.getD 1 []⟩))

/-- C9.  `read_hdf5` returns, for every dataset key in the file, exactly
the dataset's row 0 as the wavelengths and row 1 as the fluxes; the unit
string defaults to `'micron'` when the attribute is absent (never a
failure), and an attribute whose lowercase form is `'microns'`,
`'angstroms'` or `'nanometers'` is singularised by dropping its final
character; any other attribute value passes through unchanged. -/
theorem c9_read_hdf5_rows_and_units (entries : List (ℤ × H5Dataset))
    (k : ℤ) (d : H5Dataset) (hmem : (k, d) ∈ entries) (h2 : 2 ≤ d.data.length) :
    ((k, (⟨d.data.get ⟨0, by omega⟩, d.data.get ⟨1, by omega⟩⟩ : SpecEntry))
      ∈ read_hdf5 entries)
    ∧ (d.wavelengthUnits = none → waveUnitsString d = "micron".toList)
    ∧ (∀ s, d.wavelengthUnits = some s →
        pyLower s ∈ ["microns".toList, "angstroms".toList, "nanometers".toList] →
        waveUnitsString d = s.dropLast)
    ∧ (∀ s, d.wavelengthUnits = some s →
        pyLower s ∉ ["microns".toList, "angstroms".toList, "nanometers".toList] →
        waveUnitsString d = s) := by
  refine ⟨?_, ?_, ?_, ?_⟩
  · have hget0 : d.data.getD 0 [] = d.data.get ⟨0, by omega⟩ := by
      rw [List.getD_eq_getElem d.data [] (by omega)]
      rfl
    have hget1 : d.data.getD 1 [] = d.data.get ⟨1, by omega⟩ := by
      rw [List.getD_eq_getElem d.data [] (by omega)]
      rfl
    unfold read_hdf5
    rw [List.mem_map]
    exact ⟨(k, d), hmem, by rw [hget0, hget1]⟩
  · intro hnone
    unfold waveUnitsString
    rw [hnone]
    decide
  · intro s hs hplural
    unfold waveUnitsString
    rw [hs]
    simp only [Option.getD_some]
    rw [if_pos hplural]
  · intro s hs hnot
    unfold waveUnitsString
    rw [hs]
    simp only [Option.getD_some]
    rw [if_neg hnot]

theorem c9_read_hdf5_rows_and_units_witness :
    (((10709 : ℤ), (⟨[1, 2], [3, 4]⟩ : SpecEntry))
      ∈ read_hdf5 [((10709 : ℤ), ⟨some "Microns".toList, [[1, 2], [3, 4], [5, 6]]⟩)])
    ∧ waveUnitsString ⟨some "Microns".toList, [[1, 2], [3, 4], [5, 6]]⟩ = "Micron".toList := by
  have h := c9_read_hdf5_rows_and_units
    [((10709 : ℤ), ⟨some "Microns".toList, [[1, 2], [3, 4], [5, 6]]⟩)]
    10709 ⟨some "Microns".toList, [[1, 2], [3, 4], [5, 6]]⟩ (by decide) (by decide)
  refine ⟨h.1, ?_⟩
  rw [h.2.2.1 "Microns".toList rfl (by decide)]
  decide

/-! ### fluxes2mags (NIRCam_multiband_photometry.ipynb) -/

/-- `fluxes2mags(flux, fluxerr)`.  `toAB` abstracts astropy's
`.to(u.ABmag)` unit conversion and `log10f` abstracts `np.log10` (both
third-party collaborators, out of scope per spec section 6).  Each flux
error is a pair `(value, isInf)`, the flag modelling `np.inf`; the numpy
`np.where` cascade is mirrored stage for stage:
`nondet = flux < 0`; `unobs = (fluxerr <= 0) + (fluxerr == np.inf)`;
`mag = np.where(unobs, -99, np.where(nondet, 99, flux.to(ABmag)))`;
`magerr = np.where(unobs, 0, np.where(nondet, fluxerr.to(ABmag),
2.5*log10(1 + fluxerr/flux)))`. -/
def fluxes2mags (toAB log10f : ℚ → ℚ) (flux : List ℚ) (fluxerr : List (ℚ × Bool)) :
    List ℚ × List ℚ :=
  let nondet := flux.map (fun f => decide (f < 0))
  let unobs := fluxerr.map (fun e => (!e.2 && decide (e.1 ≤ 0)) || e.2)
  let mag := flux.map toAB
  let magupperlimit := fluxerr.map (fun e => toAB e.1)
  let mag1 := List.zipWith (fun nd m => if nd then (99 : ℚ) else m) nondet mag
  let mag2 := List.zipWith (fun ub m => if ub then (-99 : ℚ) else m) unobs mag1
  let magerr := List.zipWith (fun f e => 5 / 2 * log10f (1 + e.1 / f)) flux fluxerr
  let magerr1 := List.zipWith (fun (ndu : Bool × ℚ) me => if ndu.1 then ndu.2 else me)
    (nondet.zip magupperlimit) magerr
  let magerr2 := List.zipWith (fun ub me => if ub then (0 : ℚ) else me) unobs magerr1
  (mag2, magerr2)

/-- C10.  Elementwise behaviour of `fluxes2mags`: an unobserved element
(`fluxerr ≤ 0` or `fluxerr` infinite) yields `(-99, 0)` — the unobserved
rule taking precedence over the non-detection rule when both apply; an
observed non-detection (`flux < 0`) yields magnitude `99` with the 1-sigma
upper limit `toAB fluxerr` as its error; every other element yields
`(toAB flux, 2.5 * log10(1 + fluxerr / flux))`. -/
theorem c10_fluxes2mags_cases (toAB log10f : ℚ → ℚ) (flux : List ℚ)
    (fluxerr : List (ℚ × Bool)) (j : ℕ)
    (hlen : flux.length = fluxerr.length) (hj : j < flux.length) :
    ((fluxes2mags toAB log10f flux fluxerr).1.getD j 0
      = if (fluxerr.getD j (0, false)).1 ≤ 0 ∨ (fluxerr.getD j (0, false)).2 = true then -99
        else if flux.getD j 0 < 0 then 99
        else toAB (flux.getD j 0))
    ∧ ((fluxes2mags toAB log10f flux fluxerr).2.getD j 0
      = if (fluxerr.getD j (0, false)).1 ≤ 0 ∨ (fluxerr.getD j (0, false)).2 = true then 0
        else if flux.getD j 0 < 0 then toAB ((fluxerr.getD j (0, false)).1)
        else 5 / 2 * log10f (1 + (fluxerr.getD j (0, false)).1 / flux.getD j 0)) := by
  have hje : j < fluxerr.length := by omega
  unfold fluxes2mags
  simp only []
  have hgf : flux.getD j 0 = flux[j] := List.getD_eq_getElem flux 0 hj
  have hge : fluxerr.getD j (0, false) = fluxerr[j] := List.getD_eq_getElem fluxerr (0, false) hje
  constructor
  · have hlen2 : (List.zipWith (fun ub m => if ub then (-99 : ℚ) else m)
        (fluxerr.map (fun e => (!e.2 && decide (e.1 ≤ 0)) || e.2))
        (List.zipWith (fun nd m => if nd then (99 : ℚ) else m)
          (flux.map (fun f => decide (f < 0))) (flux.map toAB))).length = flux.length := by
      simp [List.length_zipWith, hlen]
    rw [List.getD_eq_getElem _ 0 (by rw [hlen2]; exact hj)]
    rw [List.getElem_zipWith, List.getElem_zipWith, List.getElem_map, List.getElem_map,
      List.getElem_map]
    rw [hgf, hge]
    rcases Bool.eq_false_or_eq_true (fluxerr[j].2) with he2 | he2
    · rcases le_or_lt (fluxerr[j].1) 0 with he1 | he1
      · simp [he2, he1]
      · rcases lt_or_le (flux[j]) 0 with hf | hf
        · simp [he2, not_le.mpr he1, hf]
        · simp [he2, not_le.mpr he1, not_lt.mpr hf]
    · simp [he2]
  · have hlen2 : (List.zipWith (fun ub me => if ub then (0 : ℚ) else me)
        (fluxerr.map (fun e => (!e.2 && decide (e.1 ≤ 0)) || e.2))
        (List.zipWith (fun (ndu : Bool × ℚ) me => if ndu.1 then ndu.2 else me)
          ((flux.map (fun f => decide (f < 0))).zip (fluxerr.map (fun e => toAB e.1)))
          (List.zipWith (fun f e => 5 / 2 * log10f (1 + e.1 / f)) flux fluxerr))).length
        = flux.length := by
      simp [List.length_zipWith, List.length_zip, hlen]
    rw [List.getD_eq_getElem _ 0 (by rw [hlen2]; exact hj)]
    rw [List.getElem_zipWith, List.getElem_zipWith, List.getElem_zip, List.getElem_map,
      List.getElem_map, List.getElem_zipWith, List.getElem_map]
    rw [hgf, hge]
    rcases Bool.eq_false_or_eq_true (fluxerr[j].2) with he2 | he2
    · rcases le_or_lt (fluxerr[j].1) 0 with he1 | he1
      · simp [he2, he1]
      · rcases lt_or_le (flux[j]) 0 with hf | hf
        · simp [he2, not_le.mpr he1, hf]
        · simp [he2, not_le.mpr he1, not_lt.mpr hf]
    · simp [he2]

unseal Rat.add Rat.mul Rat.sub Rat.inv in
theorem c10_fluxes2mags_cases_witness :
    ((fluxes2mags id id [-3, 4, 5] [(2, false), (0, false), (1, true)]).1.getD 0 0 = 99
      ∧ (fluxes2mags id id [-3, 4, 5] [(2, false), (0, false), (1, true)]).2.getD 0 0 = 2)
    ∧ ((fluxes2mags id id [-3, 4, 5] [(2, false), (0, false), (1, true)]).1.getD 1 0 = -99
      ∧ (fluxes2mags id id [-3, 4, 5] [(2, false), (0, false), (1, true)]).2.getD 1 0 = 0) := by
  have h0 := c10_fluxes2mags_cases id id [-3, 4, 5] [(2, false), (0, false), (1, true)] 0
    (by decide) (by decide)
  have h1 := c10_fluxes2mags_cases id id [-3, 4, 5] [(2, false), (0, false), (1, true)] 1
    (by decide) (by decide)
  refine ⟨⟨?_, ?_⟩, ⟨?_, ?_⟩⟩
  · rw [h0.1]
    norm_num
  · rw [h0.2]
    norm_num
  · rw [h1.1]
    norm_num
  · rw [h1.2]
    norm_num

/-! ### The Template Normalizer (02_Cross_correlation_template.ipynb)

`wave_all = content[iix]['wavelengths'] / (1. + z_input) * 1e4`;
`con_tmp = (wave_all > 3600) & (wave_all < 13000)`;
`flux = flux_all[con_tmp]; wave = wave_all[con_tmp]`;
`flux /= flux.max(); wave *= 1.e-4`;
`continuum_model = fit_generic_continuum(template, Chebyshev1D(3), exclude_regions=regions)`;
`p_template = template - continuum_model(template.spectral_axis)`;
`p_smooth_template = sflux / sflux.max()`. -/

/-- `wave_all`: template wavelengths blueshifted by `1 + z_input` and
scaled to Angstrom-like units. -/
def waveAllOf (waveTemplate : List ℚ) (z : ℚ) : List ℚ :=
  waveTemplate.map (fun w => w / (1 + z) * 10000)

/-- `con_tmp` selection of the template window, applied to both arrays. -/
def conSel (waveAll fluxAll : List ℚ) (lo hi : ℚ) : List (ℚ × ℚ) :=
  (waveAll.zip fluxAll).filter (fun p => decide (lo < p.1) && decide (p.1 < hi))

/-- The first rescale `M = flux.max()` applied to the windowed template. -/
def templateScaleM (waveTemplate fluxTemplate : List ℚ) (z lo hi : ℚ) : ℚ :=
  maxList ((conSel (waveAllOf waveTemplate z) fluxTemplate lo hi).map Prod.snd)

/-- The `Spectrum` handed to the continuum fit: windowed, first-pass
normalised flux against wavelengths back in micron units
(`flux /= flux.max(); wave *= 1.e-4`). -/
def templatePts (waveTemplate fluxTemplate : List ℚ) (z lo hi : ℚ) : List (ℚ × ℚ) :=
  (conSel (waveAllOf waveTemplate z) fluxTemplate lo hi).map
    (fun p => (p.1 / 10000, p.2 / templateScaleM waveTemplate fluxTemplate z lo hi))

/-- Samples kept for the continuum fit under `exclude_regions = regs`
(those outside every exclusion region). -/
def exclSel (regs : List (ℚ × ℚ)) (pts : List (ℚ × ℚ)) : List (ℚ × ℚ) :=
  pts.filter (fun p => !inAnyWindow regs p.1)

/-- `p_template = template - continuum_model(template.spectral_axis)`
followed by `p_smooth_template = sflux / sflux.max()`, as a function of the
fitted continuum coefficients `c₁`. -/
def sourceTemplateFlux (c₁ : List ℚ) (pts : List (ℚ × ℚ)) : List ℚ :=
  let sflux := pts.map (fun p => p.2 - evalPoly c₁ p.1)
  sflux.map (fun v => v / maxList sflux)

def sourceTemplateWave (pts : List (ℚ × ℚ)) : List ℚ := pts.map Prod.fst

/-- The spec's step (a)+(b): template wavelengths divided by `1 + z_input`
and restricted to the configured window (in micron units). -/
def specRestPts (waveTemplate fluxTemplate : List ℚ) (z lo hi : ℚ) : List (ℚ × ℚ) :=
  ((waveTemplate.map (fun w => w / (1 + z))).zip fluxTemplate).filter
    (fun p => decide (lo < p.1) && decide (p.1 < hi))

/-- The spec's step (c): subtract the fitted continuum over the windowed
grid. -/
def specResidual (c : List ℚ) (pts : List (ℚ × ℚ)) : List ℚ :=
  pts.map (fun p => p.2 - evalPoly c p.1)

/-- The claim's step (d): rescale by the maximum ABSOLUTE value. -/
def specFluxMaxAbs (c : List ℚ) (pts : List (ℚ × ℚ)) : List ℚ :=
  (specResidual c pts).map (fun v => v / maxAbsList (specResidual c pts))

/-- Step (d) as the code implements it: rescale by the (signed) maximum. -/
def specFluxMax (c : List ℚ) (pts : List (ℚ × ℚ)) : List ℚ :=
  (specResidual c pts).map (fun v => v / maxList (specResidual c pts))

theorem filter_fst_map_flux (q : ℚ → Bool) (g : ℚ × ℚ → ℚ) (pts : List (ℚ × ℚ)) :
    (pts.map (fun p => (p.1, g p))).filter (fun p => q p.1)
      = (pts.filter (fun p => q p.1)).map (fun p => (p.1, g p)) := by
  rw [List.filter_map]
  rfl

/-- The source's windowed, doubly-rescaled template equals the spec's
rest-frame windowed template with all fluxes divided by the first-pass
scale `M`. -/
theorem templatePts_eq_scaled (waveT fluxT : List ℚ) (z lo hi : ℚ) :
    templatePts waveT fluxT z lo hi
      = (specRestPts waveT fluxT z (lo / 10000) (hi / 10000)).map
          (fun p => (p.1, p.2 / templateScaleM waveT fluxT z lo hi)) := by
  set M := templateScaleM waveT fluxT z lo hi
  unfold templatePts conSel waveAllOf specRestPts
  rw [List.zip_map_left, List.zip_map_left, List.filter_map, List.filter_map,
    List.map_map, List.map_map]
  have hfilter : List.filter
      ((fun p => decide (lo < p.1) && decide (p.1 < hi)) ∘ Prod.map (fun w => w / (1 + z) * 10000) id)
      (waveT.zip fluxT)
      = List.filter
      ((fun p => decide (lo / 10000 < p.1) && decide (p.1 < hi / 10000)) ∘ Prod.map (fun w => w / (1 + z)) id)
      (waveT.zip fluxT) := by
    refine List.filter_congr ?_
    intro q _
    simp only [Function.comp, Prod.map]
    have h1 : (lo < q.1 / (1 + z) * 10000) ↔ (lo / 10000 < q.1 / (1 + z)) :=
      (div_lt_iff₀ (by norm_num : (0:ℚ) < 10000)).symm
    have h2 : (q.1 / (1 + z) * 10000 < hi) ↔ (q.1 / (1 + z) < hi / 10000) :=
      (lt_div_iff₀ (by norm_num : (0:ℚ) < 10000)).symm
    rw [decide_eq_decide.mpr h1, decide_eq_decide.mpr h2]
  rw [hfilter]
  refine List.map_congr_left ?_
  intro q _
  simp only [Function.comp, Prod.map, id]
  have : q.1 / (1 + z) * 10000 / 10000 = q.1 / (1 + z) :=
    mul_div_cancel_right₀ _ (by norm_num)
  rw [this]

/-- The first-pass scale `M` is the maximum of the spec-side windowed
fluxes (the window selection does not alter flux values). -/
theorem templateScaleM_eq_spec (waveT fluxT : List ℚ) (z lo hi : ℚ) :
    templateScaleM waveT fluxT z lo hi
      = maxList ((specRestPts waveT fluxT z (lo / 10000) (hi / 10000)).map Prod.snd) := by
  unfold templateScaleM conSel waveAllOf specRestPts
  rw [List.zip_map_left, List.zip_map_left, List.filter_map, List.filter_map,
    List.map_map, List.map_map]
  have hfilter : List.filter
      ((fun p => decide (lo < p.1) && decide (p.1 < hi)) ∘ Prod.map (fun w => w / (1 + z) * 10000) id)
      (waveT.zip fluxT)
      = List.filter
      ((fun p => decide (lo / 10000 < p.1) && decide (p.1 < hi / 10000)) ∘ Prod.map (fun w => w / (1 + z)) id)
      (waveT.zip fluxT) := by
    refine List.filter_congr ?_
    intro q _
    simp only [Function.comp, Prod.map]
    have h1 : (lo < q.1 / (1 + z) * 10000) ↔ (lo / 10000 < q.1 / (1 + z)) :=
      (div_lt_iff₀ (by norm_num : (0:ℚ) < 10000)).symm
    have h2 : (q.1 / (1 + z) * 10000 < hi) ↔ (q.1 / (1 + z) < hi / 10000) :=
      (lt_div_iff₀ (by norm_num : (0:ℚ) < 10000)).symm
    rw [decide_eq_decide.mpr h1, decide_eq_decide.mpr h2]
  rw [hfilter]
  exact congrArg maxList (List.map_congr_left (fun q _ => rfl))

/-- C4 (amended).  The Template Normalizer (a) divides every template
wavelength by `1 + z_input`, (b) discards every sample outside the
configured window, (c) fits and subtracts a least-squares continuum using
line-exclusion windows, and (d) rescales the resulting flux by dividing by
its maximum (signed) value — so the output's MAXIMUM is unity whenever the
residual has a positive maximum.  The intermediate first-pass rescale
`flux /= flux.max()` cancels: the output equals the spec-side chain
computed without it. -/
theorem c4_template_normalizer_refines (waveT fluxT : List ℚ) (z lo hi : ℚ)
    (regs : List (ℚ × ℚ)) (m : ℕ) (c₁ c : List ℚ) (hm : 0 < m)
    (hM : 0 < templateScaleM waveT fluxT z lo hi)
    (hc₁ : IsLSQPolyFit m (exclSel regs (templatePts waveT fluxT z lo hi)) c₁)
    (hc : IsLSQPolyFit m (exclSel regs (specRestPts waveT fluxT z (lo / 10000) (hi / 10000))) c)
    (hdist : HasDistinctXs (exclSel regs (specRestPts waveT fluxT z (lo / 10000) (hi / 10000))) m) :
    sourceTemplateWave (templatePts waveT fluxT z lo hi)
      = (specRestPts waveT fluxT z (lo / 10000) (hi / 10000)).map Prod.fst
    ∧ sourceTemplateFlux c₁ (templatePts waveT fluxT z lo hi)
      = specFluxMax c (specRestPts waveT fluxT z (lo / 10000) (hi / 10000))
    ∧ (0 < maxList (specResidual c (specRestPts waveT fluxT z (lo / 10000) (hi / 10000))) →
        maxList (sourceTemplateFlux c₁ (templatePts waveT fluxT z lo hi)) = 1) := by
  set M := templateScaleM waveT fluxT z lo hi with hMdef
  set spts := specRestPts waveT fluxT z (lo / 10000) (hi / 10000) with hsptsdef
  have hMne : M ≠ 0 := ne_of_gt hM
  have hstruct : templatePts waveT fluxT z lo hi = spts.map (fun p => (p.1, p.2 / M)) :=
    templatePts_eq_scaled waveT fluxT z lo hi
  have hwave : sourceTemplateWave (templatePts waveT fluxT z lo hi) = spts.map Prod.fst := by
    unfold sourceTemplateWave
    rw [hstruct, List.map_map]
    exact List.map_congr_left (fun q _ => rfl)
  have hexcl : exclSel regs (templatePts waveT fluxT z lo hi)
      = (exclSel regs spts).map (fun p => (p.1, p.2 / M)) := by
    rw [hstruct]
    unfold exclSel
    exact filter_fst_map_flux (fun w => !inAnyWindow regs w) (fun p => p.2 / M) spts
  have hscaled : IsLSQPolyFit m (exclSel regs (templatePts waveT fluxT z lo hi))
      (c.map (fun a => a / M)) := by
    rw [hexcl]
    exact isLSQ_scale hMne hc
  have hagree := lsq_fitted_values_eq hc₁ hscaled
  have hdistT : HasDistinctXs (exclSel regs (templatePts waveT fluxT z lo hi)) m := by
    obtain ⟨s, hcard, hmem⟩ := hdist
    refine ⟨s, hcard, fun x hx => ?_⟩
    rw [hexcl, List.map_map]
    have hx2 := hmem x hx
    rw [show (Prod.fst ∘ fun p : ℚ × ℚ => (p.1, p.2 / M)) = Prod.fst from rfl]
    exact hx2
  have hext := evalPoly_ext hc₁.1 (by simp [hc.1]) hm hdistT hagree
  have heval : ∀ x, evalPoly c₁ x = evalPoly c x / M := by
    intro x
    rw [hext x, evalPoly_map_div]
  set r := specResidual c spts with hrdef
  have hsflux : (templatePts waveT fluxT z lo hi).map (fun p => p.2 - evalPoly c₁ p.1)
      = r.map (fun v => v / M) := by
    rw [hstruct, List.map_map, hrdef]
    unfold specResidual
    rw [List.map_map]
    refine List.map_congr_left ?_
    intro q _
    simp only [Function.comp]
    rw [heval q.1]
    ring
  have hflux : sourceTemplateFlux c₁ (templatePts waveT fluxT z lo hi) = specFluxMax c spts := by
    unfold sourceTemplateFlux specFluxMax
    simp only []
    rw [hsflux, ← hrdef, maxList_map_div hM, List.map_map]
    refine List.map_congr_left ?_
    intro v _
    simp only [Function.comp]
    by_cases hr : maxList r = 0
    · simp [hr]
    · field_simp
  refine ⟨hwave, hflux, ?_⟩
  intro hrpos
  rw [hflux]
  unfold specFluxMax
  rw [← hrdef, maxList_map_div hrpos]
  exact div_self (ne_of_gt hrpos)

/-- A concrete template: five wavelengths that de-redshift (z = 2.1) to
0.55 … 0.59 micron, inside the (3600, 13000) Angstrom window and outside
every exclusion region, with fluxes `[-1, 4, -6, 4, -1]` — a vector
orthogonal to all cubics on this equally spaced grid, so the zero
polynomial is its exact least-squares continuum. -/
def waveC4 : List ℚ := [1705/1000, 1736/1000, 1767/1000, 1798/1000, 1829/1000]

def fluxC4 : List ℚ := [-1, 4, -6, 4, -1]

/-- The notebook's exclusion regions (micron). -/
def regsC4 : List (ℚ × ℚ) := [(0.37, 0.452), (0.476, 0.53), (0.645, 0.67)]

unseal Rat.add Rat.mul Rat.sub Rat.inv Rat.ofScientific in
/-- C4 counterexample.  With a valid least-squares continuum (the zero
cubic, certified against the source's fit samples), the source's output
flux is `[-1/4, 1, -3/2, 1, -1/4]`: its maximum ABSOLUTE value is 3/2, not
unity, and it differs from the spec-described rescale by the maximum
absolute value — the code divides by the signed maximum `sflux.max()`. -/
theorem c4_maxabs_rescale_refuted :
    IsLSQPolyFit 4 (exclSel regsC4 (templatePts waveC4 fluxC4 (21/10) 3600 13000)) [0, 0, 0, 0]
    ∧ sourceTemplateFlux [0, 0, 0, 0] (templatePts waveC4 fluxC4 (21/10) 3600 13000)
        = [-1/4, 1, -3/2, 1, -1/4]
    ∧ maxAbsList (sourceTemplateFlux [0, 0, 0, 0]
        (templatePts waveC4 fluxC4 (21/10) 3600 13000)) ≠ 1
    ∧ sourceTemplateFlux [0, 0, 0, 0] (templatePts waveC4 fluxC4 (21/10) 3600 13000)
        ≠ specFluxMaxAbs [0, 0, 0, 0]
            (specRestPts waveC4 fluxC4 (21/10) (3600/10000) (13000/10000)) :=
  ⟨orth_implies_lsq (by decide) (by decide), by decide, by decide, by decide⟩

unseal Rat.add Rat.mul Rat.sub Rat.inv Rat.ofScientific in
theorem c4_template_normalizer_refines_witness :
    sourceTemplateFlux [0, 0, 0, 0] (templatePts waveC4 fluxC4 (21/10) 3600 13000)
      = specFluxMax [0, 0, 0, 0] (specRestPts waveC4 fluxC4 (21/10) (3600/10000) (13000/10000))
    ∧ maxList (sourceTemplateFlux [0, 0, 0, 0]
        (templatePts waveC4 fluxC4 (21/10) 3600 13000)) = 1 := by
  have h := c4_template_normalizer_refines waveC4 fluxC4 (21/10) 3600 13000 regsC4 4
    [0, 0, 0, 0] [0, 0, 0, 0] (by omega) (by decide)
    (orth_implies_lsq (by decide) (by decide))
    (orth_implies_lsq (by decide) (by decide))
    ⟨{11/20, 14/25, 57/100, 29/50}, by decide, by decide⟩
  exact ⟨h.2.1, h.2.2 (by decide)⟩

end Jdat
